import Mathlib

/-!
Verification development for the quantification repository
(Classify-and-Count family of class-prevalence estimators).

The definitions below are a shallow embedding of
`quantification/cc/base.py` (class `BaseCC` and `FriedmanAC`) and
`quantification/classify_and_count/adjusted.py`
(`MulticlassAdjustedCount`).  numpy float arithmetic is modelled over ℚ;
the two division sites whose denominator can genuinely vanish for a
fitted quantifier (the AC and PAC adjustments) are modelled with an
explicit IEEE-style division result (`FDiv`) so that NaN and ±inf
behaviour is captured faithfully.  Instance batches `X` are lists over an
abstract instance type; the external classifier, cross-validation,
grid-search and solver collaborators are modelled as capability records,
exactly at the interfaces the source consumes them.
-/

namespace Quantification

/-- Result of an IEEE float division of two (exactly represented) reals:
a finite value, NaN (0/0), or a signed infinity (x/0 with x ≠ 0).
Models numpy scalar/array division, which warns but does not raise. -/
inductive FDiv where
  | fin (q : ℚ)
  | nan
  | pinf
  | ninf
deriving DecidableEq

/-- Float division of exact rationals: numpy yields num/den when den ≠ 0,
NaN for 0/0 and ±inf for (±x)/0. -/
def fdiv (num den : ℚ) : FDiv :=
  if den ≠ 0 then .fin (num / den)
  else if num = 0 then .nan
  else if 0 < num then .pinf
  else .ninf

/-- The largest IEEE double, (2^53 − 1)·2^971 ≈ 1.7977e308: the value
`np.nan_to_num` substitutes for +inf. -/
def maxFloat : ℚ := (2 ^ 53 - 1) * 2 ^ 971

/-- `np.nan_to_num`: NaN ↦ 0, ±inf ↦ ±maxFloat, finite values unchanged. -/
def nanToNum : FDiv → ℚ
  | .fin q => q
  | .nan => 0
  | .pinf => maxFloat
  | .ninf => -maxFloat

/-- `np.clip(q, 0, 1)` on a finite value. -/
def clip01 (q : ℚ) : ℚ := max 0 (min 1 q)

/-- A binary classifier capability as `BaseCC` consumes it:
`predict` yields a hard label per instance (1 = positive), and
`predict_proba`, when present, yields the (negative, positive)
probability pair per instance. -/
structure Clf (α : Type) where
  predict : α → ℕ
  predictProba : Option (α → ℚ × ℚ)

/-- The Python exceptions raised by the prediction paths of
`quantification/cc/base.py`: `ValueError` with its message, and
`AttributeError` (a missing attribute such as `predict_proba`).
The spec's error taxonomy maps onto these:
`UnsupportedEstimatorError` is the `ValueError` carrying
`unsupportedMsg`, `ConfigurationError` for HDy is the `ValueError`
carrying `hdyMsg`. -/
inductive PyError where
  | valueError (msg : String)
  | attributeError (msg : String)
deriving DecidableEq

/-- The message of the `ValueError` raised by `_predict_pcc` and
`_predict_pac` for a classifier without `predict_proba`. -/
def unsupportedMsg : String :=
  "Probabilistic methods like PCC or PAC cannot be used with hard (crisp) classifiers like %s"

/-- The message of the `ValueError` raised by `_predict_hdy` when the
quantifier was fitted without the histogram bin count `b`. -/
def hdyMsg : String :=
  "If HDy predictions are in order, the quantifier must be trained with the parameter `b`"

/-- The message of the `ValueError` raised by `predict` on an unknown
method name. -/
def invalidMsg : String :=
  "Invalid method %s. Choices are `cc`, `ac`, `pcc`, `pac`."

/-- The fitted state of a `BaseCC` quantifier:
`classes_` (sorted unique training labels), the ordered estimator bank
`estimators_` (insertion-ordered dict of positive class ↦ classifier),
the calibration tables `tpr_`/`fpr_` (crisp) and `tp_pa_`/`fp_pa_`
(probabilistic; 0 stands for a Python `None` entry, which is never read
because PAC fails on the missing `predict_proba` first), the HDy bin
count `b`, the training distribution table `train_dist_` (`none` when
the attribute was never set), the consumed `solve_hd` capability, and
the effective cross-validation fold count used during fitting. -/
structure FittedCC (α : Type) where
  classes_ : List ℤ
  estimators_ : List (ℤ × Clf α)
  tpr_ : ℤ → ℚ
  fpr_ : ℤ → ℚ
  tp_pa_ : ℤ → ℚ
  fp_pa_ : ℤ → ℚ
  b : Option ℕ
  train_dist_ : Option (List (List ℚ))
  hdSolver : List (List ℚ) → List ℚ → ℕ → List ℚ
  cvUsed : ℕ

/-- Python truthiness of the optional bin count: `if not self.b` is
taken both when `b` is `None` and when it is `0`. -/
def bFalsy : Option ℕ → Bool
  | none => true
  | some n => n == 0

/-- `np.bincount(clf.predict(X), minlength=2)[1] / len(X)`: the relative
frequency of hard label 1 among the predictions on `X`. -/
def relFreq {α : Type} (clf : Clf α) (X : List α) : ℚ :=
  (((X.map clf.predict).count 1 : ℕ) : ℚ) / (X.length : ℚ)

/-- `np.mean(clf.predict_proba(X), axis=0)[1]`: the mean positive-class
probability over the batch. -/
def meanProba {α : Type} (f : α → ℚ × ℚ) (X : List α) : ℚ :=
  ((X.map fun x => (f x).2).sum) / (X.length : ℚ)

/-- The per-class AC adjustment of `_predict_ac`:
`np.clip(np.nan_to_num((freq − fpr)/(tpr − fpr)), 0, 1)` with IEEE
division semantics for the zero denominator. -/
def acEntryFn (freq fprV tprV : ℚ) : ℚ :=
  clip01 (nanToNum (fdiv (freq - fprV) (tprV - fprV)))

/-- The per-class PAC adjustment of `_predict_pac`:
`np.clip((p1 − fp_pa)/(tp_pa − fp_pa), 0, 1)`.  There is no
`nan_to_num` here, so a NaN quotient survives the clip (`none`); ±inf
quotients clip to 1 and 0. -/
def pacEntry (p1 fppa tppa : ℚ) : Option ℚ :=
  match fdiv (p1 - fppa) (tppa - fppa) with
  | .fin q => some (clip01 q)
  | .nan => none
  | .pinf => some 1
  | .ninf => some 0

/-- The element-wise write loop `for n, v in vals: arr[n] = v` starting
at index `start` (out-of-range writes are dropped; they cannot occur for
a fitted state, where the loop exactly fills the array). -/
def npWriteLoop {β : Type} : List β → List β → ℕ → List β
  | arr, [], _ => arr
  | arr, v :: vs, start => npWriteLoop (arr.set start v) vs (start + 1)

/-- Size of the `probabilities` array: `np.zeros(1)` for a binary
problem, `np.zeros(n_classes)` otherwise. -/
def ccSize {α : Type} (q : FittedCC α) : ℕ :=
  if q.classes_.length = 2 then 1 else q.classes_.length

/-- The binary expansion step shared by CC/AC/PCC/PAC:
`if len(probabilities) < 2: probabilities = [1 − probabilities[0], probabilities[0]]`. -/
def expandBin (l : List ℚ) : List ℚ :=
  if l.length < 2 then [1 - l.headD 0, l.headD 0] else l

/-- The final renormalization shared by CC/AC/PCC:
return the array unchanged when its sum is 0, else divide by the sum. -/
def normalize (l : List ℚ) : List ℚ :=
  if l.sum = 0 then l else l.map fun p => p / l.sum

/-- Assembles the `probabilities` array of CC/AC/PCC from the per-class
values: zeros of the right size, then the enumerate-write loop, then the
binary expansion. -/
def assembleQ {α : Type} (q : FittedCC α) (vals : List ℚ) : List ℚ :=
  expandBin (npWriteLoop (List.replicate (ccSize q) 0) vals 0)

/-- Per-class CC values: the relative positive frequency of each
estimator's hard predictions. -/
def ccVals {α : Type} (q : FittedCC α) (X : List α) : List ℚ :=
  q.estimators_.map fun e => relFreq e.2 X

/-- Per-class AC values: the clipped, NaN-substituted adjustment. -/
def acVals {α : Type} (q : FittedCC α) (X : List α) : List ℚ :=
  q.estimators_.map fun e => acEntryFn (relFreq e.2 X) (q.fpr_ e.1) (q.tpr_ e.1)

/-- `BaseCC._predict_cc`. -/
def predictCC {α : Type} (q : FittedCC α) (X : List α) : List ℚ :=
  normalize (assembleQ q (ccVals q X))

/-- `BaseCC._predict_ac`. -/
def predictAC {α : Type} (q : FittedCC α) (X : List α) : List ℚ :=
  normalize (assembleQ q (acVals q X))

/-- The PCC loop: the first estimator without `predict_proba` raises;
otherwise the per-class mean positive probabilities are collected in
bank order. -/
def pccVals {α : Type} : List (ℤ × Clf α) → List α → Except PyError (List ℚ)
  | [], _ => .ok []
  | (_, clf) :: rest, X =>
    match clf.predictProba with
    | none => .error (.valueError unsupportedMsg)
    | some f => (pccVals rest X).map fun vs => meanProba f X :: vs

/-- `BaseCC._predict_pcc`. -/
def predictPCC {α : Type} (q : FittedCC α) (X : List α) : Except PyError (List ℚ) :=
  (pccVals q.estimators_ X).map fun vals => normalize (assembleQ q vals)

/-- The PAC loop: like PCC but each collected value is the (possibly
NaN) clipped adjustment. -/
def pacVals {α : Type} : List (ℤ × Clf α) → List α → (ℤ → ℚ) → (ℤ → ℚ) →
    Except PyError (List (Option ℚ))
  | [], _, _, _ => .ok []
  | (c, clf) :: rest, X, tpf, fpf =>
    match clf.predictProba with
    | none => .error (.valueError unsupportedMsg)
    | some f =>
      (pacVals rest X tpf fpf).map fun vs =>
        pacEntry (meanProba f X) (fpf c) (tpf c) :: vs

/-- Binary expansion over possibly-NaN (`none`) float values:
`[1 − p, p]` where `1 − NaN = NaN`. -/
def expandBinO (l : List (Option ℚ)) : List (Option ℚ) :=
  if l.length < 2 then
    [(l.headD (some 0)).map fun p => 1 - p, l.headD (some 0)]
  else l

/-- NaN-absorbing `np.sum` over possibly-NaN float values. -/
def osum (l : List (Option ℚ)) : Option ℚ :=
  l.foldr
    (fun a s =>
      match a, s with
      | some x, some t => some (x + t)
      | _, _ => none)
    (some 0)

/-- Renormalization over possibly-NaN values: a NaN sum compares unequal
to 0, so the array is divided by NaN and every entry becomes NaN. -/
def normalizeO (l : List (Option ℚ)) : List (Option ℚ) :=
  match osum l with
  | none => l.map fun _ => none
  | some s => if s = 0 then l else l.map (Option.map fun p => p / s)

/-- Assembles the PAC `probabilities` array (zeros are finite `some 0`). -/
def assembleO {α : Type} (q : FittedCC α) (vals : List (Option ℚ)) : List (Option ℚ) :=
  expandBinO (npWriteLoop (List.replicate (ccSize q) (some 0)) vals 0)

/-- `BaseCC._predict_pac`. -/
def predictPAC {α : Type} (q : FittedCC α) (X : List α) : Except PyError (List (Option ℚ)) :=
  (pacVals q.estimators_ X q.tp_pa_ q.fp_pa_).map fun vals => normalizeO (assembleO q vals)

/-- The bin index `np.histogram` assigns to a value of [0,1] with `b`
equal-width bins over (0,1): `⌊v·b⌋`, except that 1 lands in the last bin. -/
def binOf (b : ℕ) (v : ℚ) : ℕ := min (Int.toNat ⌊v * (b : ℚ)⌋) (b - 1)

/-- `np.histogram(vals, bins=b, range=(0,1))[0]`: counts per bin; values
outside [0,1] are not counted. -/
def hist (b : ℕ) (vals : List ℚ) : List ℕ :=
  (List.range b).map fun k =>
    (vals.filter fun v => decide (0 ≤ v ∧ v ≤ 1 ∧ binOf b v = k)).length

/-- Fallback classifier for the (never-failing, for a fitted state)
dict lookup `self.estimators_[1]`. -/
def dfltClf (α : Type) : Clf α := ⟨fun _ => 0, none⟩

/-- Collects `clf.predict_proba(X)[:, 1]` for every estimator, raising
`AttributeError` at the first estimator without probability output. -/
def collectProba1 {α : Type} : List (ℤ × Clf α) → List α → Except PyError (List (List ℚ))
  | [], _ => .ok []
  | (_, clf) :: rest, X =>
    match clf.predictProba with
    | none => .error (.attributeError "predict_proba")
    | some f => (collectProba1 rest X).map fun cols => (X.map fun x => (f x).2) :: cols

/-- `BaseCC._predict_hdy`: fails when `b` is unconfigured, else builds
the test histogram(s) and delegates to the `solve_hd` capability. -/
def predictHDY {α : Type} (q : FittedCC α) (X : List α) : Except PyError (List (Option ℚ)) :=
  if bFalsy q.b then .error (.valueError hdyMsg)
  else
    let bb := q.b.getD 0
    match q.train_dist_ with
    | none => .error (.attributeError "train_dist_")
    | some td =>
      if q.classes_.length = 2 then
        match ((q.estimators_.lookup 1).getD (dfltClf α)).predictProba with
        | none => .error (.attributeError "predict_proba")
        | some f =>
          let preds := X.map fun x => (f x).2
          let testDist := (hist bb preds).map fun k => (k : ℚ) / (X.length : ℚ)
          .ok ((q.hdSolver td testDist q.classes_.length).map some)
      else
        (collectProba1 q.estimators_ X).map fun cols =>
          let testDist :=
            ((List.range bb).map fun bin =>
              cols.map fun col => (((hist bb col).getD bin 0 : ℕ) : ℚ) / (X.length : ℚ)).flatten
          (q.hdSolver td testDist q.classes_.length).map some

/-- `BaseCC.predict`: string dispatch over the five strategies.  The
CC/AC/PCC vectors are NaN-free, embedded via `some`. -/
def predict {α : Type} (q : FittedCC α) (X : List α) (method : String) :
    Except PyError (List (Option ℚ)) :=
  if method = "cc" then .ok ((predictCC q X).map some)
  else if method = "ac" then .ok ((predictAC q X).map some)
  else if method = "pcc" then (predictPCC q X).map (List.map some)
  else if method = "pac" then predictPAC q X
  else if method = "hdy" then predictHDY q X
  else .error (.valueError invalidMsg)

/-- The `probabilities` array of a strategy just before the final
sum-test/renormalization (the claim's "raw (pre-normalization)" vector);
`[]` on the error paths, which the theorems exclude. -/
def preNormalize {α : Type} (q : FittedCC α) (X : List α) (method : String) :
    List (Option ℚ) :=
  if method = "cc" then (assembleQ q (ccVals q X)).map some
  else if method = "ac" then (assembleQ q (acVals q X)).map some
  else if method = "pcc" then
    match pccVals q.estimators_ X with
    | .ok vals => (assembleQ q vals).map some
    | .error _ => []
  else if method = "pac" then
    match pacVals q.estimators_ X q.tp_pa_ q.fp_pa_ with
    | .ok vals => assembleO q vals
    | .error _ => []
  else []

/-- `np.unique(y)`: the sorted list of distinct labels. -/
def sortedClasses (y : List ℤ) : List ℤ := (y.dedup).insertionSort (· ≤ ·)

/-- The one-vs-all binarized label vector: 1 where `y == c`, else 0. -/
def binarize (y : List ℤ) (c : ℤ) : List ℤ := y.map fun v => if v = c then 1 else 0

/-- `np.min` of a list of naturals (0 on the empty list, which the
source would reject before reaching this point). -/
def listMin : List ℕ → ℕ
  | [] => 0
  | a :: rest => rest.foldl min a

/-- The external collaborators `BaseCC.fit` consumes, at the interfaces
the source uses them: building + fitting a binarized classifier
(`_make_estimator` / grid search / `clf.fit`), the mean cross-validated
tpr/fpr scores (`cross_val_score`), the direct single-split scores
(`tpr`/`fpr` of `metrics/model_score.py`), out-of-fold probability
predictions (`cross_val_predict(method="predict_proba")`), and the
Hellinger-distance mixture solver (`solve_hd` of `utils/base.py`, which
is not under src/ and is therefore kept abstract). -/
structure Caps (α : Type) where
  trainClf : List α → List ℤ → Clf α
  scoreTpr : Clf α → List α → List ℤ → ℚ
  scoreFpr : Clf α → List α → List ℤ → ℚ
  cvTpr : Clf α → List α → List ℤ → ℕ → ℚ
  cvFpr : Clf α → List α → List ℤ → ℕ → ℚ
  cvPredictProba : Clf α → List α → List ℤ → List (ℚ × ℚ)
  hdSolver : List (List ℚ) → List ℚ → ℕ → List ℚ

/-- One (true class, classifier) slice of the multiclass branch of
`BaseCC._compute_distribution`: the histogram of the classifier's
out-of-fold positive probabilities restricted to instances of true class
`cls`, divided by `float(sum(y_bin))` — the count of the *classifier's*
positive class, not of the histogrammed class. -/
def mcSlice {α : Type} (caps : Caps α) (X : List α) (y : List ℤ) (bb : ℕ)
    (cls clfCls : ℤ) (clf : Clf α) : List ℚ :=
  let ybin := binarize y clfCls
  let preds := (caps.cvPredictProba clf X ybin).map fun p => p.2
  let preds := (preds.zip y).filterMap fun pv => if pv.2 = cls then some pv.1 else none
  (hist bb preds).map fun k => (k : ℚ) / ((ybin.count 1 : ℕ) : ℚ)

/-- The binary branch of `BaseCC._compute_distribution`: rows are the
negative and positive score histograms, each divided by the count of the
corresponding true label (the binary path hard-codes labels 0 and 1). -/
def binaryDist {α : Type} (caps : Caps α) (X : List α) (y : List ℤ) (bb : ℕ)
    (ests : List (ℤ × Clf α)) : List (List ℚ) :=
  let clf1 := (ests.lookup 1).getD (dfltClf α)
  let preds := (caps.cvPredictProba clf1 X y).map fun p => p.2
  let pos := (preds.zip y).filterMap fun pv => if pv.2 = 1 then some pv.1 else none
  let neg := (preds.zip y).filterMap fun pv => if pv.2 = 0 then some pv.1 else none
  [(hist bb neg).map fun k => (k : ℚ) / ((y.count 0 : ℕ) : ℚ),
   (hist bb pos).map fun k => (k : ℚ) / ((y.count 1 : ℕ) : ℚ)]

/-- `BaseCC._compute_distribution`: skipped (attribute left unset) when
`b` is falsy; the multiclass table is reshaped row-major to
`(n_classes, b · n_clfs)`. -/
def computeDistribution {α : Type} (caps : Caps α) (X : List α) (y : List ℤ)
    (b : Option ℕ) (classes : List ℤ) (ests : List (ℤ × Clf α)) :
    Option (List (List ℚ)) :=
  match b with
  | none => none
  | some bb =>
    if bb = 0 then none
    else if classes.length = 2 then some (binaryDist caps X y bb ests)
    else
      some (classes.map fun cls =>
        ((List.range bb).map fun bin =>
          ests.map fun e => (mcSlice caps X y bb cls e.1 e.2).getD bin 0).flatten)

/-- `BaseCC.fit`: caps the fold count at the smallest class count,
orders the classes, trains one binarized estimator per class (only the
second class for a binary problem), computes the crisp calibration
(directly for one fold, by cross-validation otherwise) and, when
probability output exists, the probabilistic calibration
`tp_pa_`/`fp_pa_` (mean positive probability over binarized positives /
negatives), then the training distribution table. -/
def fit {α : Type} (caps : Caps α) (X : List α) (y : List ℤ) (cv : ℕ)
    (b : Option ℕ) : FittedCC α :=
  let cvUsed := min cv (listMin ((sortedClasses y).map fun c => y.count c))
  let classes := sortedClasses y
  let keys := if classes.length = 2 then classes.drop 1 else classes
  let ests := keys.map fun c => (c, caps.trainClf X (binarize y c))
  let tprPairs := ests.map fun e =>
    (e.1, if cvUsed = 1 then caps.scoreTpr e.2 X (binarize y e.1)
          else caps.cvTpr e.2 X (binarize y e.1) cvUsed)
  let fprPairs := ests.map fun e =>
    (e.1, if cvUsed = 1 then caps.scoreFpr e.2 X (binarize y e.1)
          else caps.cvFpr e.2 X (binarize y e.1) cvUsed)
  let paPairs := ests.map fun e =>
    match e.2.predictProba with
    | none => (e.1, ((0 : ℚ), (0 : ℚ)))
    | some f =>
      let pairs := X.zip (binarize y e.1)
      let posSum := (pairs.filterMap fun p => if p.2 = 1 then some ((f p.1).2) else none).sum
      let negSum := (pairs.filterMap fun p => if p.2 = 0 then some ((f p.1).2) else none).sum
      (e.1, (posSum / (((binarize y e.1).count 1 : ℕ) : ℚ),
             negSum / (((binarize y e.1).count 0 : ℕ) : ℚ)))
  { classes_ := classes
    estimators_ := ests
    tpr_ := fun c => (tprPairs.lookup c).getD 0
    fpr_ := fun c => (fprPairs.lookup c).getD 0
    tp_pa_ := fun c => ((paPairs.lookup c).getD (0, 0)).1
    fp_pa_ := fun c => ((paPairs.lookup c).getD (0, 0)).2
    b := b
    train_dist_ := computeDistribution caps X y b classes ests
    hdSolver := caps.hdSolver
    cvUsed := cvUsed }

/-- The structural facts `fit` guarantees about a fitted state: a
nonempty class list, and an estimator bank keyed by the second class
(binary) or by every class (otherwise). -/
def WFq {α : Type} (q : FittedCC α) : Prop :=
  q.classes_ ≠ [] ∧
  q.estimators_.map Prod.fst =
    (if q.classes_.length = 2 then q.classes_.drop 1 else q.classes_)

/-- The classifier-capability contract for probability output: every
probability is in [0,1]. -/
def ProbaBounded {α : Type} (q : FittedCC α) : Prop :=
  ∀ e ∈ q.estimators_, ∀ f, e.2.predictProba = some f →
    ∀ x, 0 ≤ (f x).2 ∧ (f x).2 ≤ 1

namespace Friedman

/-- A classifier as `FriedmanAC` consumes it: `predict_proba` is
required on this path (its absence would raise before anything of
interest happens), so the probability pair is a total function. -/
structure FClf (α : Type) where
  proba : α → ℚ × ℚ

/-- The fitted state of `FriedmanAC` for an `n`-class problem (the
source indexes `V` by the class labels themselves, so labels are
`0 … n−1`): the estimator bank, the training prevalence vector, the
correction matrix `V`, and the consumed numeric capabilities —
`is_pd`/`nearest_pd` (in `utils/base.py`, not under src/, hence kept
abstract) and the external `quadprog.solve_qp`. -/
structure FriedmanFitted (n : ℕ) (α : Type) where
  estimators_ : Fin n → FClf α
  train_prevs : Fin n → ℚ
  V : Matrix (Fin n) (Fin n) ℚ
  isPD : Matrix (Fin n) (Fin n) ℚ → Bool
  nearestPD : Matrix (Fin n) (Fin n) ℚ → Matrix (Fin n) (Fin n) ℚ
  solveQP : Matrix (Fin n) (Fin n) ℚ → (Fin n → ℚ) →
    Matrix (Fin n) (Fin (n + 1)) ℚ → (Fin (n + 1) → ℚ) → Fin n → ℚ

/-- The raw per-instance score row of `FriedmanAC.predict`: for a binary
problem the two probability columns of the single estimator (keyed 1),
otherwise each estimator's positive-class probability. -/
def upRaw {n : ℕ} {α : Type} (q : FriedmanFitted n α) (x : α) : Fin n → ℚ :=
  if h : n = 2 then fun j =>
    (fun p => if (j : ℕ) = 0 then p.1 else p.2)
      ((q.estimators_ ⟨1, by omega⟩).proba x)
  else fun j => ((q.estimators_ j).proba x).2

/-- The thresholded indicator row: the score row is renormalized to sum
1, then compared (strictly) against the training prevalence. -/
def upInd {n : ℕ} {α : Type} (q : FriedmanFitted n α) (x : α) : Fin n → ℚ :=
  let raw := upRaw q x
  let s := ∑ j, raw j
  fun j => if q.train_prevs j < raw j / s then 1 else 0

/-- `U = Up.mean(axis=0)`. -/
def friedmanU {n : ℕ} {α : Type} (q : FriedmanFitted n α) (X : List α) : Fin n → ℚ :=
  fun j => ((X.map fun x => upInd q x j).sum) / (X.length : ℚ)

/-- The constraint matrix the source builds:
`np.vstack([-ones(1, n), eye(n)]).T`, so column 0 is all −1 and column
`i+1` is the `i`-th basis vector. -/
def friedmanC (n : ℕ) : Matrix (Fin n) (Fin (n + 1)) ℚ :=
  Matrix.of fun i j => if (j : ℕ) = 0 then -1 else if (j : ℕ) = (i : ℕ) + 1 then 1 else 0

/-- The constraint vector `b = [-1, 0, …, 0]`. -/
def friedmanB (n : ℕ) : Fin (n + 1) → ℚ := fun j => if (j : ℕ) = 0 then -1 else 0

/-- Feasibility under `quadprog.solve_qp`'s constraint convention:
`Cᵀ x ≥ b`, every row an inequality since the source leaves `meq` at its
default 0. -/
def qpFeasible {n m : ℕ} (C : Matrix (Fin n) (Fin m) ℚ) (b : Fin m → ℚ)
    (x : Fin n → ℚ) : Prop :=
  ∀ j, b j ≤ C.transpose.mulVec x j

/-- The objective `quadprog.solve_qp` minimizes: `½ xᵀGx − aᵀx`. -/
def qpObj {n : ℕ} (G : Matrix (Fin n) (Fin n) ℚ) (a x : Fin n → ℚ) : ℚ :=
  (1 / 2) * Matrix.dotProduct x (G.mulVec x) - Matrix.dotProduct a x

/-- The contract of the quadratic-programming capability on a given
instance: the returned vector is feasible and minimizes the objective
among all feasible vectors. -/
def IsQPSolution {n m : ℕ} (G : Matrix (Fin n) (Fin n) ℚ) (a : Fin n → ℚ)
    (C : Matrix (Fin n) (Fin m) ℚ) (b : Fin m → ℚ) (x : Fin n → ℚ) : Prop :=
  qpFeasible C b x ∧ ∀ z, qpFeasible C b z → qpObj G a x ≤ qpObj G a z

/-- `G = V.T.dot(V)`, replaced by its nearest positive-definite
approximation when `is_pd` rejects it. -/
def computedG {n : ℕ} {α : Type} (q : FriedmanFitted n α) : Matrix (Fin n) (Fin n) ℚ :=
  let G0 := q.V.transpose * q.V
  if q.isPD G0 then G0 else q.nearestPD G0

/-- `a = U.dot(V)`. -/
def computedA {n : ℕ} {α : Type} (q : FriedmanFitted n α) (X : List α) : Fin n → ℚ :=
  Matrix.vecMul (friedmanU q X) q.V

/-- `FriedmanAC.predict`: the solver's solution vector is returned
directly, with no renormalization. -/
def friedmanPredict {n : ℕ} {α : Type} (q : FriedmanFitted n α) (X : List α) :
    Fin n → ℚ :=
  q.solveQP (computedG q) (computedA q X) (friedmanC n) (friedmanB n)

end Friedman

namespace CCLegacy

/-- A hard classifier as `classify_and_count/adjusted.py` consumes it
(labels are nonnegative ints, fed to `np.bincount`). -/
structure LClf (α : Type) where
  predict : α → ℕ

/-- The fitted state of `MulticlassAdjustedCount`: the estimator list,
the class set, and the per-sample conditional-probability matrices
(the iterable the parallel capability maps `solve_adjustments` over). -/
structure MCAdjusted (α : Type) where
  estimators_ : List (LClf α)
  classes_ : List ℕ
  conditional_prob_ : List (List (List ℚ))

/-- `np.bincount(vals, minlength=m)`. -/
def bincountMin (vals : List ℕ) (minlength : ℕ) : List ℕ :=
  (List.range (max minlength (vals.foldr (fun v m => max (v + 1) m) 0))).map
    fun i => vals.count i

/-- `np.argmax`: the first index attaining the maximum. -/
def argmaxFirst (l : List ℕ) : ℕ := l.indexOf (l.foldr max 0)

/-- The per-instance majority vote of `MulticlassAdjustedCount._predict`:
`np.apply_along_axis(lambda x: np.argmax(np.bincount(x)), 0, predictions)`. -/
def majorityVotes {α : Type} (st : MCAdjusted α) (X : List α) : List ℕ :=
  let predictions := st.estimators_.map fun clf => X.map clf.predict
  predictions.transpose.map fun col => argmaxFirst (bincountMin col 0)

/-- The relative class frequencies of the majority votes:
`np.bincount(maj, minlength=len(classes_)) / sum`. -/
def majorityRelFreq {α : Type} (st : MCAdjusted α) (X : List α) : List ℚ :=
  let freq := bincountMin (majorityVotes st X) st.classes_.length
  freq.map fun k => (k : ℚ) / ((freq.sum : ℕ) : ℚ)

/-- The inner `solve_adjustments` of `MulticlassAdjustedCount._predict`,
with `np.linalg.lstsq` abstracted as the least-squares capability: it
builds the nonzero-index submatrix, solves the least-squares system,
scatters the solution into a copy of `coefs` — and then returns the
*unmodified* `coefs` argument. -/
def solve_adjustments (lstsq : List (List ℚ) → List ℚ → List ℚ)
    (matrix : List (List ℚ)) (coefs : List ℚ) : List ℚ :=
  let idxs := coefs.enum.filterMap fun p => if p.2 ≠ 0 then some p.1 else none
  let sub := idxs.map fun i => idxs.map fun j => ((matrix.getD i []).getD j 0)
  let adjustment := lstsq sub.transpose (idxs.map fun i => coefs.getD i 0)
  let adjusted := idxs.enum.foldl
    (fun acc p => acc.set p.2 (adjustment.getD p.1 0)) coefs
  coefs

/-- `np.mean(rows, axis=0)`: column-wise mean of a stack of rows. -/
def meanVecs (ls : List (List ℚ)) : List ℚ :=
  match ls with
  | [] => []
  | v :: _ =>
    (List.range v.length).map fun j =>
      ((ls.map fun row => row.getD j 0).sum) / ((ls.length : ℕ) : ℚ)

/-- `MulticlassAdjustedCount._predict`: majority-vote relative
frequencies, `solve_adjustments` mapped over the conditional-probability
matrices by the parallel capability, then the mean of the results. -/
def mcPredict {α : Type} (st : MCAdjusted α) (X : List α)
    (lstsq : List (List ℚ) → List ℚ → List ℚ) : List ℚ :=
  let relative_freq := majorityRelFreq st X
  let adjusted := st.conditional_prob_.map fun m => solve_adjustments lstsq m relative_freq
  meanVecs adjusted

end CCLegacy

/-! ### Concrete fixtures

Small concrete classifiers, capability records and fitted states used to
instantiate the theorems.  `clfHalf` is a probabilistic classifier whose
probability output is constantly (½, ½) — a perfectly uninformative but
entirely legitimate classifier, under which `fit` produces the
degenerate probabilistic calibration `tp_pa_ = fp_pa_`. -/

/-- A classifier predicting hard label 1 with constant probabilities (½, ½). -/
def clfHalf : Clf Unit := ⟨fun _ => 1, some fun _ => (1 / 2, 1 / 2)⟩

/-- A crisp classifier (no `predict_proba`) predicting hard label 1. -/
def clfCrisp : Clf Unit := ⟨fun _ => 1, none⟩

/-- A capability record whose trained classifiers are `clfHalf` and whose
out-of-fold probabilities are constantly (½, ½). -/
def capsHalfCC : Caps Unit :=
  { trainClf := fun _ _ => clfHalf
    scoreTpr := fun _ _ _ => 1
    scoreFpr := fun _ _ _ => 0
    cvTpr := fun _ _ _ _ => 1
    cvFpr := fun _ _ _ _ => 0
    cvPredictProba := fun _ X _ => X.map fun _ => (1 / 2, 1 / 2)
    hdSolver := fun _ _ _ => [] }

/-- A binary quantifier actually produced by `fit` from the constant-½
classifier: its probabilistic calibration is `tp_pa_ 1 = fp_pa_ 1 = ½`. -/
def qHalfFit : FittedCC Unit := fit capsHalfCC [(), ()] [0, 1] 50 none

/-- The same fit with the HDy bin count configured (`b = 1`). -/
def qHdyFit : FittedCC Unit := fit capsHalfCC [(), ()] [0, 1] 50 (some 1)

/-- A binary fitted state with a crisp estimator and the (reachable,
e.g. from a label-uncorrelated classifier under cross-validation)
degenerate crisp calibration `tpr_ = fpr_ = ½`. -/
def qDegen : FittedCC Unit :=
  { classes_ := [0, 1]
    estimators_ := [(1, clfCrisp)]
    tpr_ := fun _ => 1 / 2
    fpr_ := fun _ => 1 / 2
    tp_pa_ := fun _ => 0
    fp_pa_ := fun _ => 0
    b := none
    train_dist_ := none
    hdSolver := fun _ _ _ => []
    cvUsed := 2 }

/-- A capability record over natural-number instances, out-of-fold
probabilities constantly (½, ½): used to exhibit the multiclass
distribution-table normalization. -/
def capsThird : Caps ℕ :=
  { trainClf := fun _ _ => ⟨fun _ => 1, some fun _ => (1 / 2, 1 / 2)⟩
    scoreTpr := fun _ _ _ => 1
    scoreFpr := fun _ _ _ => 0
    cvTpr := fun _ _ _ _ => 1
    cvFpr := fun _ _ _ _ => 0
    cvPredictProba := fun _ X _ => X.map fun _ => (1 / 2, 1 / 2)
    hdSolver := fun _ _ _ => [] }

/-- An unbalanced 3-class training set: one instance of class 0, two of
class 1, three of class 2. -/
def yUnbal : List ℤ := [0, 1, 1, 2, 2, 2]

/-- The instance batch paired with `yUnbal`. -/
def xUnbal : List ℕ := [0, 1, 2, 3, 4, 5]

/-- The classifier `capsThird.trainClf` returns. -/
def clfThird : Clf ℕ := capsThird.trainClf [] []

/-- The AC adjustment as the claim words it (apply
`(freq − FPR)/(TPR − FPR)`, replace NaN — *including the TPR−FPR = 0
case* — by 0, then clip to [0,1]).  This follows the spec's words and is
used only to compare the claim against the source behaviour
`acEntryFn`. -/
def specAcEntry (freq fprV tprV : ℚ) : ℚ :=
  clip01 (if tprV - fprV = 0 then 0 else (freq - fprV) / (tprV - fprV))

namespace Friedman

/-- A fitted binary `FriedmanAC` state: a constant-(½, ½) estimator,
balanced training prevalence, `V` the identity (a perfect correction
matrix), `is_pd` accepting (the identity is positive-definite), and a
solver that returns the zero vector — which theorem
`zero_solves_qF_instance` shows is exactly what a correct QP solver must
return on the instance this state generates. -/
def qF : FriedmanFitted 2 Unit :=
  { estimators_ := fun _ => ⟨fun _ => (1 / 2, 1 / 2)⟩
    train_prevs := fun _ => 1 / 2
    V := 1
    isPD := fun _ => true
    nearestPD := id
    solveQP := fun _ _ _ _ => fun _ => 0 }

end Friedman

namespace CCLegacy

/-- A fitted 3-class `MulticlassAdjustedCount` state with one estimator
(predicting class 1) and one conditional-probability matrix. -/
def stM : MCAdjusted Unit :=
  { estimators_ := [⟨fun _ => 1⟩]
    classes_ := [0, 1, 2]
    conditional_prob_ := [[[1, 0, 0], [0, 1, 0], [0, 0, 1]]] }

/-- A least-squares capability returning a visibly different vector, to
make the discarding of the adjustment observable. -/
def lstsqC : List (List ℚ) → List ℚ → List ℚ := fun _ _ => [9, 9, 9]

end CCLegacy

/-! ### Supporting lemmas -/

theorem predict_cc_dispatch {α : Type} (q : FittedCC α) (X : List α) :
    predict q X "cc" = .ok ((predictCC q X).map some) := rfl

theorem predict_ac_dispatch {α : Type} (q : FittedCC α) (X : List α) :
    predict q X "ac" = .ok ((predictAC q X).map some) := rfl

theorem predict_pcc_dispatch {α : Type} (q : FittedCC α) (X : List α) :
    predict q X "pcc" = (predictPCC q X).map (List.map some) := rfl

theorem predict_pac_dispatch {α : Type} (q : FittedCC α) (X : List α) :
    predict q X "pac" = predictPAC q X := rfl

theorem predict_hdy_dispatch {α : Type} (q : FittedCC α) (X : List α) :
    predict q X "hdy" = predictHDY q X := rfl

theorem preNormalize_cc_dispatch {α : Type} (q : FittedCC α) (X : List α) :
    preNormalize q X "cc" = (assembleQ q (ccVals q X)).map some := rfl

theorem preNormalize_ac_dispatch {α : Type} (q : FittedCC α) (X : List α) :
    preNormalize q X "ac" = (assembleQ q (acVals q X)).map some := rfl

theorem clip01_mem (q : ℚ) : 0 ≤ clip01 q ∧ clip01 q ≤ 1 := by
  unfold clip01
  constructor
  · exact le_max_left 0 _
  · rcases le_total 1 q with h | h
    · simp [min_eq_left h]
    · rcases le_total 0 q with h0 | h0
      · simp [min_eq_right h, h0, h]
      · simp [min_eq_right (h0.trans zero_le_one), max_eq_left h0]

theorem relFreq_mem {α : Type} (clf : Clf α) (X : List α) :
    0 ≤ relFreq clf X ∧ relFreq clf X ≤ 1 := by
  unfold relFreq
  rcases eq_or_ne X [] with rfl | hX
  · simp
  have hlen : (0 : ℚ) < X.length := by
    exact_mod_cast List.length_pos.mpr hX
  constructor
  · positivity
  · rw [div_le_one hlen]
    have hc : (X.map clf.predict).count 1 ≤ X.length := by
      simpa using (X.map clf.predict).count_le_length 1
    exact_mod_cast hc

theorem meanProba_mem {α : Type} (f : α → ℚ × ℚ) (X : List α) (hX : X ≠ [])
    (hb : ∀ x, 0 ≤ (f x).2 ∧ (f x).2 ≤ 1) :
    0 ≤ meanProba f X ∧ meanProba f X ≤ 1 := by
  have hlen : (0 : ℚ) < X.length := by
    exact_mod_cast List.length_pos.mpr hX
  unfold meanProba
  constructor
  · apply div_nonneg _ hlen.le
    exact List.sum_nonneg fun p hp => by
      obtain ⟨x, _, rfl⟩ := List.mem_map.mp hp
      exact (hb x).1
  · rw [div_le_one hlen]
    have h1 : (X.map fun x => (f x).2).sum ≤ (X.map fun _ => (1 : ℚ)).sum :=
      List.sum_le_sum fun x _ => (hb x).2
    simpa using h1

theorem mem_npWriteLoop {β : Type} :
    ∀ (vals arr : List β) (s : ℕ) (p : β), p ∈ npWriteLoop arr vals s → p ∈ arr ∨ p ∈ vals
  | [], arr, s, p => by
    intro hp
    exact Or.inl hp
  | v :: vs, arr, s, p => by
    intro hp
    rcases mem_npWriteLoop vs (arr.set s v) (s + 1) p hp with h | h
    · rcases List.mem_or_eq_of_mem_set h with h' | h'
      · exact Or.inl h'
      · exact Or.inr (h' ▸ List.mem_cons_self v vs)
    · exact Or.inr (List.mem_cons_of_mem v h)

theorem assembleQ_mem {α : Type} (q : FittedCC α) (vals : List ℚ)
    (hv : ∀ p ∈ vals, 0 ≤ p ∧ p ≤ 1) :
    ∀ p ∈ assembleQ q vals, 0 ≤ p ∧ p ≤ 1 := by
  have hw : ∀ p ∈ npWriteLoop (List.replicate (ccSize q) (0 : ℚ)) vals 0,
      0 ≤ p ∧ p ≤ 1 := by
    intro p hp
    rcases mem_npWriteLoop vals _ 0 p hp with h | h
    · rw [List.eq_of_mem_replicate h]
      exact ⟨le_refl 0, zero_le_one⟩
    · exact hv p h
  intro p hp
  unfold assembleQ expandBin at hp
  split at hp
  · have hh : 0 ≤ (npWriteLoop (List.replicate (ccSize q) (0 : ℚ)) vals 0).headD 0 ∧
        (npWriteLoop (List.replicate (ccSize q) (0 : ℚ)) vals 0).headD 0 ≤ 1 := by
      cases hw' : npWriteLoop (List.replicate (ccSize q) (0 : ℚ)) vals 0 with
      | nil => simp [hw']
      | cons a l =>
        simp only [hw', List.headD_cons]
        exact hw a (by rw [hw']; exact List.mem_cons_self a l)
    simp only [List.mem_cons, List.not_mem_nil, or_false] at hp
    rcases hp with rfl | rfl
    · constructor
      · linarith [hh.2]
      · linarith [hh.1]
    · exact hh
  · exact hw p hp

theorem list_sum_zero_of_nonneg {l : List ℚ} (h : ∀ p ∈ l, 0 ≤ p) (hs : l.sum = 0) :
    ∀ p ∈ l, p = 0 := by
  induction l with
  | nil => simp
  | cons a t ih =>
    have ha : 0 ≤ a := h a (List.mem_cons_self a t)
    have ht : 0 ≤ t.sum := List.sum_nonneg fun p hp => h p (List.mem_cons_of_mem a hp)
    have hs' : a + t.sum = 0 := by simpa using hs
    have ha0 : a = 0 := by linarith
    have hts : t.sum = 0 := by linarith
    intro p hp
    rcases List.mem_cons.mp hp with rfl | hp
    · exact ha0
    · exact ih (fun p hp => h p (List.mem_cons_of_mem a hp)) hts p hp

theorem sum_map_div (l : List ℚ) (s : ℚ) : (l.map fun p => p / s).sum = l.sum / s := by
  induction l with
  | nil => simp
  | cons a t ih => simp [ih, add_div]

theorem normalize_facts {l : List ℚ} (h : ∀ p ∈ l, 0 ≤ p) :
    (∀ p ∈ normalize l, 0 ≤ p) ∧ (l.sum ≠ 0 → (normalize l).sum = 1) ∧
    (l.sum = 0 → normalize l = l) := by
  unfold normalize
  rcases eq_or_ne l.sum 0 with hs | hs
  · simp only [hs, if_pos rfl]
    exact ⟨h, fun hc => absurd rfl hc, fun _ => rfl⟩
  · have hpos : 0 < l.sum := lt_of_le_of_ne (List.sum_nonneg h) (Ne.symm hs)
    simp only [if_neg hs]
    refine ⟨?_, ?_, ?_⟩
    · intro p hp
      obtain ⟨p', hp', rfl⟩ := List.mem_map.mp hp
      exact div_nonneg (h p' hp') hpos.le
    · intro _
      rw [sum_map_div, div_self hs]
    · intro hc
      exact absurd hc hs

theorem osum_map_some (l : List ℚ) : osum (l.map some) = some l.sum := by
  induction l with
  | nil => simp [osum]
  | cons a t ih => simp [osum] at ih ⊢; simp [ih]

theorem reduceOption_map_some {l : List (Option ℚ)} (h : ∀ o ∈ l, o ≠ none) :
    l.reduceOption.map some = l := by
  induction l with
  | nil => simp
  | cons a t ih =>
    cases a with
    | none => exact absurd rfl (h none (List.mem_cons_self _ t))
    | some p =>
      simp only [List.reduceOption_cons_of_some, List.map_cons]
      rw [ih fun o ho => h o (List.mem_cons_of_mem _ ho)]

theorem normalizeO_map_some (w : List ℚ) :
    normalizeO (w.map some) = (normalize w).map some := by
  unfold normalizeO normalize
  rw [osum_map_some]
  rcases eq_or_ne w.sum 0 with hs | hs
  · simp [hs]
  · simp only [if_neg hs]
    rw [List.map_map, List.map_map]
    rfl

theorem pacEntry_mem {p1 fppa tppa r : ℚ} (h : pacEntry p1 fppa tppa = some r) :
    0 ≤ r ∧ r ≤ 1 := by
  unfold pacEntry at h
  rcases hf : fdiv (p1 - fppa) (tppa - fppa) with q | _ | _ | _ <;> rw [hf] at h
  · rw [Option.some_inj] at h
    exact h ▸ clip01_mem q
  · exact absurd h (by simp)
  · rw [Option.some_inj] at h
    exact h ▸ ⟨zero_le_one, le_refl 1⟩
  · rw [Option.some_inj] at h
    exact h ▸ ⟨le_refl 0, zero_le_one⟩

theorem pccVals_ok_of_proba {α : Type} :
    ∀ (ests : List (ℤ × Clf α)) (X : List α),
      (∀ e ∈ ests, (e.2.predictProba).isSome) → ∃ vals, pccVals ests X = .ok vals
  | [], _, _ => ⟨[], rfl⟩
  | (c, clf) :: rest, X, h => by
    obtain ⟨f, hf⟩ := Option.isSome_iff_exists.mp (h (c, clf) (List.mem_cons_self _ rest))
    obtain ⟨vals, hv⟩ := pccVals_ok_of_proba rest X
      fun e he => h e (List.mem_cons_of_mem _ he)
    exact ⟨meanProba f X :: vals,
      by simp [pccVals, show clf.predictProba = some f from hf, hv, Except.map]⟩

theorem pacVals_ok_of_proba {α : Type} :
    ∀ (ests : List (ℤ × Clf α)) (X : List α) (tpf fpf : ℤ → ℚ),
      (∀ e ∈ ests, (e.2.predictProba).isSome) →
      ∃ vals, pacVals ests X tpf fpf = .ok vals
  | [], _, _, _, _ => ⟨[], rfl⟩
  | (c, clf) :: rest, X, tpf, fpf, h => by
    obtain ⟨f, hf⟩ := Option.isSome_iff_exists.mp (h (c, clf) (List.mem_cons_self _ rest))
    obtain ⟨vals, hv⟩ := pacVals_ok_of_proba rest X tpf fpf
      fun e he => h e (List.mem_cons_of_mem _ he)
    exact ⟨pacEntry (meanProba f X) (fpf c) (tpf c) :: vals,
      by simp [pacVals, show clf.predictProba = some f from hf, hv, Except.map]⟩

theorem pccVals_mem {α : Type} :
    ∀ (ests : List (ℤ × Clf α)) (X : List α) (vals : List ℚ),
      pccVals ests X = .ok vals → X ≠ [] →
      (∀ e ∈ ests, ∀ f, e.2.predictProba = some f → ∀ x, 0 ≤ (f x).2 ∧ (f x).2 ≤ 1) →
      ∀ p ∈ vals, 0 ≤ p ∧ p ≤ 1
  | [], _, vals, hok, _, _ => by
    simp only [pccVals] at hok
    cases hok
    simp
  | (c, clf) :: rest, X, vals, hok, hX, hb => by
    simp only [pccVals] at hok
    cases hf : clf.predictProba with
    | none => rw [hf] at hok; cases hok
    | some f =>
      rw [hf] at hok
      cases hrest : pccVals rest X with
      | error e => rw [hrest] at hok; cases hok
      | ok vs =>
        rw [hrest] at hok
        simp only [Except.map, Except.ok.injEq] at hok
        subst hok
        intro p hp
        rcases List.mem_cons.mp hp with rfl | hp
        · exact meanProba_mem f X hX (hb (c, clf) (List.mem_cons_self _ rest) f hf)
        · exact pccVals_mem rest X vs hrest hX
            (fun e he => hb e (List.mem_cons_of_mem _ he)) p hp

theorem pacVals_mem {α : Type} :
    ∀ (ests : List (ℤ × Clf α)) (X : List α) (tpf fpf : ℤ → ℚ)
      (vals : List (Option ℚ)),
      pacVals ests X tpf fpf = .ok vals →
      ∀ o ∈ vals, ∀ r, o = some r → 0 ≤ r ∧ r ≤ 1
  | [], _, _, _, vals, hok => by
    simp only [pacVals] at hok
    cases hok
    simp
  | (c, clf) :: rest, X, tpf, fpf, vals, hok => by
    simp only [pacVals] at hok
    cases hf : clf.predictProba with
    | none => rw [hf] at hok; cases hok
    | some f =>
      rw [hf] at hok
      cases hrest : pacVals rest X tpf fpf with
      | error e => rw [hrest] at hok; cases hok
      | ok vs =>
        rw [hrest] at hok
        simp only [Except.map, Except.ok.injEq] at hok
        subst hok
        intro o ho r hr
        rcases List.mem_cons.mp ho with rfl | ho
        · exact pacEntry_mem hr
        · exact pacVals_mem rest X tpf fpf vs hrest o ho r hr

theorem assembleO_mem {α : Type} (q : FittedCC α) (vals : List (Option ℚ))
    (hv : ∀ o ∈ vals, ∀ r, o = some r → 0 ≤ r ∧ r ≤ 1) :
    ∀ o ∈ assembleO q vals, ∀ r, o = some r → 0 ≤ r ∧ r ≤ 1 := by
  have hw : ∀ o ∈ npWriteLoop (List.replicate (ccSize q) (some (0 : ℚ))) vals 0,
      ∀ r, o = some r → 0 ≤ r ∧ r ≤ 1 := by
    intro o ho r hr
    rcases mem_npWriteLoop vals _ 0 o ho with h | h
    · rw [List.eq_of_mem_replicate h] at hr
      rw [Option.some_inj] at hr
      exact hr ▸ ⟨le_refl 0, zero_le_one⟩
    · exact hv o h r hr
  intro o ho r hr
  unfold assembleO expandBinO at ho
  split at ho
  · set hd := (npWriteLoop (List.replicate (ccSize q) (some (0 : ℚ))) vals 0).headD (some 0)
      with hhd
    have hhdm : ∀ r, hd = some r → 0 ≤ r ∧ r ≤ 1 := by
      intro r hr
      rw [hhd] at hr
      cases hw' : npWriteLoop (List.replicate (ccSize q) (some (0 : ℚ))) vals 0 with
      | nil =>
        rw [hw'] at hr
        simp only [List.headD_nil, Option.some_inj] at hr
        exact hr ▸ ⟨le_refl 0, zero_le_one⟩
      | cons a l =>
        rw [hw'] at hr
        simp only [List.headD_cons] at hr
        exact hw a (by rw [hw']; exact List.mem_cons_self a l) r hr
    simp only [List.mem_cons, List.not_mem_nil, or_false] at ho
    rcases ho with rfl | rfl
    · cases hd' : hd with
      | none => rw [hd'] at hr; simp at hr
      | some p =>
        rw [hd'] at hr
        simp only [Option.map_some'] at hr
        rw [Option.some_inj] at hr
        have hp := hhdm p hd'
        constructor
        · rw [← hr]; linarith [hp.2]
        · rw [← hr]; linarith [hp.1]
    · exact hhdm r hr
  · exact hw o ho r hr

theorem one_le_maxFloat : (1 : ℚ) ≤ maxFloat := by norm_num [maxFloat]

theorem clip01_maxFloat : clip01 maxFloat = 1 := by
  rw [clip01, min_eq_left one_le_maxFloat]
  exact max_eq_right zero_le_one

theorem clip01_neg_maxFloat : clip01 (-maxFloat) = 0 := by
  have h1 : (-maxFloat : ℚ) ≤ 1 := by linarith [one_le_maxFloat]
  have h0 : (-maxFloat : ℚ) ≤ 0 := by linarith [one_le_maxFloat]
  rw [clip01, min_eq_right h1]
  exact max_eq_left h0

theorem acEntryFn_eq (f fp tp : ℚ) :
    acEntryFn f fp tp =
      if tp - fp ≠ 0 then clip01 ((f - fp) / (tp - fp))
      else if fp < f then 1 else 0 := by
  unfold acEntryFn fdiv
  rcases eq_or_ne (tp - fp) 0 with hd | hd
  · rw [if_neg (not_not.mpr hd), if_neg (not_not.mpr hd)]
    rcases lt_trichotomy fp f with hf | hf | hf
    · have hnum : ¬ (f - fp = 0) := by intro hc; linarith
      have hpos : 0 < f - fp := by linarith
      rw [if_neg hnum, if_pos hpos, if_pos hf]
      exact clip01_maxFloat
    · have hnum : f - fp = 0 := by linarith
      have hlt : ¬ fp < f := by linarith
      rw [if_pos hnum, if_neg hlt]
      simp [nanToNum, clip01]
    · have hnum : ¬ (f - fp = 0) := by intro hc; linarith
      have hneg : ¬ (0 < f - fp) := by intro hc; linarith
      rw [if_neg hnum, if_neg hneg, if_neg (by intro hc; linarith)]
      exact clip01_neg_maxFloat
  · rw [if_pos hd, if_pos hd]
    rfl

theorem prevProps {w : List ℚ} (hw : ∀ p ∈ w, 0 ≤ p) :
    (∀ o ∈ (normalize w).map some, ∃ p, o = some p ∧ 0 ≤ p) ∧
    (osum (w.map some) ≠ some 0 → osum ((normalize w).map some) = some 1) ∧
    (osum (w.map some) = some 0 →
      (normalize w).map some = w.map some ∧ ∀ o ∈ w.map some, o = some 0) := by
  obtain ⟨hn, hs1, hs0⟩ := normalize_facts hw
  refine ⟨?_, ?_, ?_⟩
  · intro o ho
    obtain ⟨p, hp, rfl⟩ := List.mem_map.mp ho
    exact ⟨p, rfl, hn p hp⟩
  · intro hne
    rw [osum_map_some] at hne ⊢
    rw [hs1 fun h => hne (by rw [h])]
  · intro he
    rw [osum_map_some, Option.some_inj] at he
    refine ⟨by rw [hs0 he], ?_⟩
    intro o ho
    obtain ⟨p, hp, rfl⟩ := List.mem_map.mp ho
    rw [list_sum_zero_of_nonneg hw he p hp]

/-! ### Claim theorems -/

/-- C1 (amended).  For every fitted `BaseCC` quantifier and every
strategy in {cc, ac, pcc, pac}, whenever the returned prevalence vector
contains no NaN entry, it has non-negative entries and sums to 1 if the
raw (pre-normalization) sum is nonzero, and when the raw sum is exactly
zero the raw all-zero vector is returned unmodified.  The no-NaN proviso
is automatically satisfied by cc, ac and pcc; PAC alone can produce NaN
entries (see the counterexample), which is the single point at which the
original claim fails. -/
theorem c1_prevalence_vector {α : Type} (q : FittedCC α) (X : List α)
    (hX : X ≠ []) (hPB : ProbaBounded q) (m : String)
    (hm : m = "cc" ∨ m = "ac" ∨ m = "pcc" ∨ m = "pac")
    (v : List (Option ℚ)) (hv : predict q X m = .ok v)
    (hnn : ∀ o ∈ preNormalize q X m, o ≠ none) :
    (∀ o ∈ v, ∃ p, o = some p ∧ 0 ≤ p) ∧
    (osum (preNormalize q X m) ≠ some 0 → osum v = some 1) ∧
    (osum (preNormalize q X m) = some 0 →
      v = preNormalize q X m ∧ ∀ o ∈ preNormalize q X m, o = some 0) := by
  rcases hm with rfl | rfl | rfl | rfl
  · -- cc
    have hv' : v = (normalize (assembleQ q (ccVals q X))).map some := by
      have : Except.ok (ε := PyError) ((predictCC q X).map some) = .ok v := hv
      simpa [predictCC] using this.symm
    have hpre : preNormalize q X "cc" = (assembleQ q (ccVals q X)).map some := rfl
    have hw : ∀ p ∈ assembleQ q (ccVals q X), 0 ≤ p :=
      fun p hp => (assembleQ_mem q _ (fun p hp => by
        obtain ⟨e, _, rfl⟩ := List.mem_map.mp hp
        exact relFreq_mem e.2 X) p hp).1
    rw [hv', hpre]
    exact prevProps hw
  · -- ac
    have hv' : v = (normalize (assembleQ q (acVals q X))).map some := by
      have : Except.ok (ε := PyError) ((predictAC q X).map some) = .ok v := hv
      simpa [predictAC] using this.symm
    have hpre : preNormalize q X "ac" = (assembleQ q (acVals q X)).map some := rfl
    have hw : ∀ p ∈ assembleQ q (acVals q X), 0 ≤ p :=
      fun p hp => (assembleQ_mem q _ (fun p hp => by
        obtain ⟨e, _, rfl⟩ := List.mem_map.mp hp
        exact clip01_mem _) p hp).1
    rw [hv', hpre]
    exact prevProps hw
  · -- pcc
    have hd : predict q X "pcc" = (predictPCC q X).map (List.map some) := rfl
    rw [hd] at hv
    cases hok : pccVals q.estimators_ X with
    | error e => rw [predictPCC, hok] at hv; cases hv
    | ok vals =>
      rw [predictPCC, hok] at hv
      simp only [Except.map, Except.ok.injEq] at hv
      have hpre : preNormalize q X "pcc" = (assembleQ q vals).map some := by
        have : preNormalize q X "pcc" =
            match pccVals q.estimators_ X with
            | .ok vals => (assembleQ q vals).map some
            | .error _ => [] := rfl
        rw [this, hok]
      have hw : ∀ p ∈ assembleQ q vals, 0 ≤ p :=
        fun p hp => (assembleQ_mem q _ (pccVals_mem _ X vals hok hX hPB) p hp).1
      rw [← hv, hpre]
      exact prevProps hw
  · -- pac
    have hd : predict q X "pac" = predictPAC q X := rfl
    rw [hd] at hv
    cases hok : pacVals q.estimators_ X q.tp_pa_ q.fp_pa_ with
    | error e => rw [predictPAC, hok] at hv; cases hv
    | ok vals =>
      rw [predictPAC, hok] at hv
      simp only [Except.map, Except.ok.injEq] at hv
      have hpre : preNormalize q X "pac" = assembleO q vals := by
        have : preNormalize q X "pac" =
            match pacVals q.estimators_ X q.tp_pa_ q.fp_pa_ with
            | .ok vals => assembleO q vals
            | .error _ => [] := rfl
        rw [this, hok]
      rw [hpre] at hnn
      have hred : (assembleO q vals).reduceOption.map some = assembleO q vals :=
        reduceOption_map_some hnn
      have hw : ∀ p ∈ (assembleO q vals).reduceOption, 0 ≤ p := by
        intro p hp
        have hmem : some p ∈ assembleO q vals := List.reduceOption_mem_iff.mp hp
        exact (assembleO_mem q vals (pacVals_mem _ X _ _ vals hok) (some p) hmem p rfl).1
      have hnorm : v = (normalize ((assembleO q vals).reduceOption)).map some := by
        rw [← hv]
        conv_lhs => rw [← hred]
        rw [normalizeO_map_some]
      have hpre' : preNormalize q X "pac" = ((assembleO q vals).reduceOption).map some :=
        hpre.trans hred.symm
      rw [hnorm, hpre']
      exact prevProps hw

/-- C1 counterexample.  `qHalfFit` is produced by `fit` from a
legitimate probabilistic classifier with constant probability ½, giving
the degenerate calibration `tp_pa_ = fp_pa_ = ½`.  The PAC adjustment is
then `(½ − ½)/(½ − ½) = NaN`, `np.clip` propagates the NaN, and
`predict` returns the all-NaN pair `[NaN, NaN]` — a vector that is
neither non-negative-summing-to-1 nor the unmodified all-zero vector,
refuting the claim as stated. -/
theorem c1_counterexample :
    qHalfFit.tp_pa_ 1 = 1 / 2 ∧ qHalfFit.fp_pa_ 1 = 1 / 2 ∧
    predict qHalfFit [()] "pac" = .ok [none, none] ∧
    ¬ (∀ o ∈ ([none, none] : List (Option ℚ)), ∃ p, o = some p ∧ 0 ≤ p) ∧
    osum [none, none] ≠ some 1 ∧
    ([none, none] : List (Option ℚ)) ≠ [some 0, some 0] := by
  refine ⟨?_, ?_, ?_, ?_, by simp [osum], by simp⟩
  · norm_num [qHalfFit, fit, capsHalfCC, sortedClasses, binarize, listMin, clfHalf,
      List.insertionSort, List.orderedInsert, List.dedup, List.pwFilter, List.lookup,
      List.filterMap]
  · norm_num [qHalfFit, fit, capsHalfCC, sortedClasses, binarize, listMin, clfHalf,
      List.insertionSort, List.orderedInsert, List.dedup, List.pwFilter, List.lookup,
      List.filterMap]
  · rw [predict_pac_dispatch]
    norm_num [predictPAC, qHalfFit, fit, capsHalfCC, sortedClasses, binarize,
      listMin, clfHalf, pacVals, meanProba, pacEntry, fdiv, assembleO, npWriteLoop,
      expandBinO, normalizeO, osum, ccSize, Except.map, List.filterMap,
      List.insertionSort, List.orderedInsert, List.dedup, List.pwFilter, List.lookup]
  · intro h
    obtain ⟨p, hp, -⟩ := h none (List.mem_cons_self _ _)
    cases hp

/-- C1 witness: the amended theorem applied to the fitted state
`qHalfFit`, the batch `[()]` and the cc strategy. -/
theorem c1_witness :
    (([()] : List Unit) ≠ [] ∧ ProbaBounded qHalfFit ∧
      predict qHalfFit [()] "cc" = .ok [some 0, some 1] ∧
      ∀ o ∈ preNormalize qHalfFit [()] "cc", o ≠ none) ∧
    ((∀ o ∈ ([some 0, some 1] : List (Option ℚ)), ∃ p, o = some p ∧ 0 ≤ p) ∧
     (osum (preNormalize qHalfFit [()] "cc") ≠ some 0 →
       osum [some 0, some 1] = some 1) ∧
     (osum (preNormalize qHalfFit [()] "cc") = some 0 →
       ([some 0, some 1] : List (Option ℚ)) = preNormalize qHalfFit [()] "cc" ∧
       ∀ o ∈ preNormalize qHalfFit [()] "cc", o = some 0)) := by
  have hPB : ProbaBounded qHalfFit := by
    intro e he f hf x
    have he' : e = (1, clfHalf) := by
      have : qHalfFit.estimators_ = [(1, clfHalf)] := rfl
      rw [this] at he
      simpa using he
    subst he'
    have hf' : f = fun _ => ((1 : ℚ) / 2, (1 : ℚ) / 2) := by
      have : clfHalf.predictProba = some fun _ => ((1 : ℚ) / 2, (1 : ℚ) / 2) := rfl
      rw [this] at hf
      exact (Option.some_inj.mp hf).symm
    subst hf'
    norm_num
  have hpre : preNormalize qHalfFit [()] "cc" = [some 0, some 1] := by
    rw [preNormalize_cc_dispatch]
    norm_num [assembleQ, ccVals, qHalfFit, fit, capsHalfCC, sortedClasses, binarize,
      listMin, clfHalf, relFreq, npWriteLoop, expandBin, ccSize, List.count,
      List.countP, List.countP.go, List.insertionSort, List.orderedInsert, List.dedup, List.pwFilter]
  have hnn : ∀ o ∈ preNormalize qHalfFit [()] "cc", o ≠ none := by
    intro o ho
    rw [hpre] at ho
    simp only [List.mem_cons, List.not_mem_nil, or_false] at ho
    rcases ho with rfl | rfl <;> simp
  have hpred : predict qHalfFit [()] "cc" = .ok [some 0, some 1] := by
    rw [predict_cc_dispatch]
    norm_num [predictCC, normalize, assembleQ, ccVals, qHalfFit, fit, capsHalfCC,
      sortedClasses, binarize, listMin, clfHalf, relFreq, npWriteLoop, expandBin,
      ccSize, List.count, List.countP, List.countP.go, List.insertionSort,
      List.orderedInsert, List.dedup, List.pwFilter]
  exact ⟨⟨by simp, hPB, hpred, hnn⟩,
    c1_prevalence_vector qHalfFit [()] (by simp) hPB "cc" (Or.inl rfl)
      [some 0, some 1] hpred hnn⟩

/-- C2 (amended).  For every fitted `BaseCC` quantifier, the AC strategy
computes per class the hard-prediction relative positive frequency and
the pre-normalization entry
`np.clip(np.nan_to_num((freq − FPR)/(TPR − FPR)), 0, 1)`, which under
IEEE semantics equals the plain clipped quotient when TPR ≠ FPR, and in
the TPR = FPR case equals 0 only when freq ≤ FPR — when freq > FPR the
quotient is +inf, `nan_to_num` turns it into the largest float and the
clip yields 1, not 0.  The assembled vector is then expanded (binary)
and renormalized. -/
theorem c2_ac_adjustment {α : Type} (q : FittedCC α) (X : List α)
    (n : ℕ) (cls : ℤ) (clf : Clf α)
    (hn : q.estimators_[n]? = some (cls, clf)) :
    (acVals q X)[n]? = some
      (if q.tpr_ cls - q.fpr_ cls ≠ 0 then
        clip01 ((relFreq clf X - q.fpr_ cls) / (q.tpr_ cls - q.fpr_ cls))
      else if q.fpr_ cls < relFreq clf X then 1 else 0) ∧
    predict q X "ac" = .ok ((normalize (assembleQ q (acVals q X))).map some) := by
  constructor
  · rw [acVals, List.getElem?_map, hn, Option.map_some']
    rw [acEntryFn_eq]
  · rw [predict_ac_dispatch]
    rfl

/-- C2 counterexample.  On the fitted binary state `qDegen` (degenerate
crisp calibration `tpr_ = fpr_ = ½`, a classifier predicting positive on
all of X, so `freq = 1`): the source computes `(1 − ½)/(½ − ½) = +inf`,
`nan_to_num` makes it the largest float and the clip yields entry 1 and
prevalence `[0, 1]`, while the claim's formula (NaN→0 for TPR−FPR = 0,
then clip) yields entry 0 and prevalence `[1, 0]`. -/
theorem c2_counterexample :
    acEntryFn 1 (1 / 2) (1 / 2) = 1 ∧ specAcEntry 1 (1 / 2) (1 / 2) = 0 ∧
    predict qDegen [()] "ac" = .ok [some 0, some 1] ∧
    (normalize (expandBin [specAcEntry 1 (1 / 2) (1 / 2)])).map some =
      ([some 1, some 0] : List (Option ℚ)) ∧
    ([some (0 : ℚ), some 1] : List (Option ℚ)) ≠ [some 1, some 0] := by
  have hentry : acEntryFn 1 (1 / 2) (1 / 2) = 1 := by
    rw [acEntryFn_eq]
    norm_num
  refine ⟨hentry, by norm_num [specAcEntry, clip01], ?_, ?_, by simp⟩
  · rw [predict_ac_dispatch]
    have hav : acVals qDegen [()] = [1] := by
      simp only [acVals, qDegen, clfCrisp, List.map_cons, List.map_nil]
      rw [show relFreq ⟨fun _ => 1, none⟩ [()] = 1 by
        norm_num [relFreq, List.count, List.countP, List.countP.go]]
      rw [hentry]
    rw [predictAC, hav]
    norm_num [normalize, assembleQ, npWriteLoop, expandBin, ccSize, qDegen]
  · norm_num [specAcEntry, clip01, normalize, expandBin]

theorem wfq_estimators_ne {α : Type} (q : FittedCC α) (hWF : WFq q) :
    q.estimators_ ≠ [] := by
  intro hc
  obtain ⟨hcls, hkeys⟩ := hWF
  rw [hc, List.map_nil] at hkeys
  by_cases h2 : q.classes_.length = 2
  · rw [if_pos h2] at hkeys
    have hlen : (q.classes_.drop 1).length = 1 := by
      rw [List.length_drop, h2]
    rw [← hkeys] at hlen
    simp at hlen
  · rw [if_neg h2] at hkeys
    exact hcls hkeys.symm

theorem collectProba1_error {α : Type} :
    ∀ (ests : List (ℤ × Clf α)) (X : List α) (e : PyError),
      collectProba1 ests X = .error e → e = .attributeError "predict_proba"
  | [], _, e, h => by simp [collectProba1] at h
  | (c, clf) :: rest, X, e, h => by
    simp only [collectProba1] at h
    cases hf : clf.predictProba with
    | none =>
      rw [hf] at h
      cases h
      rfl
    | some f =>
      rw [hf] at h
      cases hr : collectProba1 rest X with
      | ok cols => rw [hr] at h; cases h
      | error e2 =>
        rw [hr] at h
        have h' : e2 = e := by simpa [Except.map] using h
        rw [← h']
        exact collectProba1_error rest X e2 hr

/-- C5 (confirmed).  For every fitted `BaseCC` quantifier whose
underlying classifier has no `predict_proba`, the pcc and pac strategies
fail with the unsupported-estimator error (the `ValueError` explaining
that hard (crisp) classifiers are incompatible with probabilistic
methods); with a probabilistic classifier both strategies return a
prevalence vector and in particular never raise that error. -/
theorem c5_probabilistic_methods_error {α : Type} (q : FittedCC α) (X : List α)
    (hWF : WFq q) :
    ((∀ e ∈ q.estimators_, e.2.predictProba = none) →
      predict q X "pcc" = .error (.valueError unsupportedMsg) ∧
      predict q X "pac" = .error (.valueError unsupportedMsg)) ∧
    ((∀ e ∈ q.estimators_, (e.2.predictProba).isSome) →
      (∃ v, predict q X "pcc" = .ok v) ∧ (∃ w, predict q X "pac" = .ok w)) := by
  constructor
  · intro hno
    cases hq : q.estimators_ with
    | nil => exact absurd hq (wfq_estimators_ne q hWF)
    | cons e rest =>
      obtain ⟨c, clf⟩ := e
      have hcl : clf.predictProba = none := by
        have := hno (c, clf) (by rw [hq]; exact List.mem_cons_self _ _)
        exact this
      constructor
      · rw [predict_pcc_dispatch, predictPCC, hq]
        simp [pccVals, hcl, Except.map]
      · rw [predict_pac_dispatch, predictPAC, hq]
        simp [pacVals, hcl, Except.map]
  · intro hall
    constructor
    · obtain ⟨vals, hok⟩ := pccVals_ok_of_proba q.estimators_ X hall
      exact ⟨(normalize (assembleQ q vals)).map some,
        by rw [predict_pcc_dispatch, predictPCC, hok]; rfl⟩
    · obtain ⟨vals, hok⟩ := pacVals_ok_of_proba q.estimators_ X q.tp_pa_ q.fp_pa_ hall
      exact ⟨normalizeO (assembleO q vals),
        by rw [predict_pac_dispatch, predictPAC, hok]; rfl⟩

/-- C5 witness: the theorem applied to the crisp state `qDegen` (both
strategies raise) and to the probabilistic state `qHalfFit` (both
strategies return a vector). -/
theorem c5_witness :
    (WFq qDegen ∧ (∀ e ∈ qDegen.estimators_, e.2.predictProba = none) ∧
      predict qDegen [()] "pcc" = .error (.valueError unsupportedMsg) ∧
      predict qDegen [()] "pac" = .error (.valueError unsupportedMsg)) ∧
    (WFq qHalfFit ∧ (∀ e ∈ qHalfFit.estimators_, (e.2.predictProba).isSome) ∧
      (∃ v, predict qHalfFit [()] "pcc" = .ok v) ∧
      (∃ w, predict qHalfFit [()] "pac" = .ok w)) := by
  have hwf1 : WFq qDegen := by
    constructor
    · show ([0, 1] : List ℤ) ≠ []
      exact List.cons_ne_nil _ _
    · simp [qDegen]
  have hno : ∀ e ∈ qDegen.estimators_, e.2.predictProba = none := by
    intro e he
    have hq : qDegen.estimators_ = [(1, clfCrisp)] := rfl
    rw [hq] at he
    simp only [List.mem_cons, List.not_mem_nil, or_false] at he
    subst he
    rfl
  have hwf2 : WFq qHalfFit := by
    constructor
    · have hc : qHalfFit.classes_ = [0, 1] := by
        norm_num [qHalfFit, fit, sortedClasses, List.dedup, List.pwFilter,
          List.insertionSort, List.orderedInsert]
      rw [hc]
      exact List.cons_ne_nil _ _
    · norm_num [qHalfFit, fit, sortedClasses, capsHalfCC, clfHalf, binarize,
        List.dedup, List.pwFilter, List.insertionSort, List.orderedInsert]
  have hall : ∀ e ∈ qHalfFit.estimators_, (e.2.predictProba).isSome := by
    intro e he
    have hq : qHalfFit.estimators_ = [(1, clfHalf)] := rfl
    rw [hq] at he
    simp only [List.mem_cons, List.not_mem_nil, or_false] at he
    subst he
    rfl
  exact ⟨⟨hwf1, hno, (c5_probabilistic_methods_error qDegen [()] hwf1).1 hno⟩,
    ⟨hwf2, hall, (c5_probabilistic_methods_error qHalfFit [()] hwf2).2 hall⟩⟩

theorem assembleQ_single {α : Type} (q : FittedCC α) (h1 : ccSize q = 1) (v : ℚ) :
    assembleQ q [v] = [1 - v, v] := by
  rw [assembleQ, h1]
  simp [npWriteLoop, expandBin]

theorem normalize_pair (v : ℚ) : normalize [1 - v, v] = [1 - v, v] := by
  have hs : ([1 - v, v] : List ℚ).sum = 1 := by simp
  simp [normalize, hs]

theorem assembleO_single {α : Type} (q : FittedCC α) (h1 : ccSize q = 1)
    (o : Option ℚ) :
    assembleO q [o] = [o.map fun p => 1 - p, o] := by
  rw [assembleO, h1]
  simp [npWriteLoop, expandBinO]

theorem normalizeO_pair (o : Option ℚ) :
    normalizeO [o.map fun p => 1 - p, o] = [o.map fun p => 1 - p, o] := by
  cases o with
  | none => simp [normalizeO, osum]
  | some p =>
    have hs : osum [some (1 - p), some p] = some 1 := by
      simp [osum]
    simp [normalizeO, hs]

theorem wfq_binary_single {α : Type} (q : FittedCC α) (hWF : WFq q)
    (h2 : q.classes_.length = 2) :
    (∃ c clf, q.estimators_ = [(c, clf)]) ∧ ccSize q = 1 := by
  obtain ⟨-, hkeys⟩ := hWF
  rw [if_pos h2] at hkeys
  have hlen : q.estimators_.length = 1 := by
    have h := congrArg List.length hkeys
    rw [List.length_map, List.length_drop, h2] at h
    exact h
  obtain ⟨e, he⟩ := List.length_eq_one.mp hlen
  exact ⟨⟨e.1, e.2, by rw [he]⟩, by rw [ccSize, if_pos h2]⟩

/-- C6 (confirmed).  For every fitted binary (2-class) `BaseCC`
quantifier and every strategy except HDy, the single scalar probability
computed for the positive class is expanded to the pair `[1 − p, p]`
before the prevalence vector is returned (the subsequent renormalization
divides by `(1 − p) + p = 1` and is the identity). -/
theorem c6_binary_expansion {α : Type} (q : FittedCC α) (X : List α)
    (hWF : WFq q) (h2 : q.classes_.length = 2) :
    ∃ c clf, q.estimators_ = [(c, clf)] ∧
      predict q X "cc" = .ok [some (1 - relFreq clf X), some (relFreq clf X)] ∧
      predict q X "ac" = .ok
        [some (1 - acEntryFn (relFreq clf X) (q.fpr_ c) (q.tpr_ c)),
         some (acEntryFn (relFreq clf X) (q.fpr_ c) (q.tpr_ c))] ∧
      ∀ f, clf.predictProba = some f →
        predict q X "pcc" = .ok [some (1 - meanProba f X), some (meanProba f X)] ∧
        predict q X "pac" = .ok
          [(pacEntry (meanProba f X) (q.fp_pa_ c) (q.tp_pa_ c)).map fun p => 1 - p,
           pacEntry (meanProba f X) (q.fp_pa_ c) (q.tp_pa_ c)] := by
  obtain ⟨⟨c, clf, hq⟩, h1⟩ := wfq_binary_single q hWF h2
  refine ⟨c, clf, hq, ?_, ?_, ?_⟩
  · rw [predict_cc_dispatch, predictCC, ccVals, hq]
    rw [List.map_cons, List.map_nil, assembleQ_single q h1, normalize_pair]
    rfl
  · rw [predict_ac_dispatch, predictAC, acVals, hq]
    rw [List.map_cons, List.map_nil, assembleQ_single q h1, normalize_pair]
    rfl
  · intro f hf
    constructor
    · rw [predict_pcc_dispatch, predictPCC, hq]
      have hok : pccVals [(c, clf)] X = .ok [meanProba f X] := by
        simp [pccVals, hf, Except.map]
      rw [hok]
      simp only [Except.map]
      rw [assembleQ_single q h1, normalize_pair]
      rfl
    · rw [predict_pac_dispatch, predictPAC, hq]
      have hok : pacVals [(c, clf)] X q.tp_pa_ q.fp_pa_ =
          .ok [pacEntry (meanProba f X) (q.fp_pa_ c) (q.tp_pa_ c)] := by
        simp [pacVals, hf, Except.map]
      rw [hok]
      simp only [Except.map]
      rw [assembleO_single q h1, normalizeO_pair]

/-- C6 witness: the theorem applied to the fitted binary state
`qHalfFit` and the batch `[()]`. -/
theorem c6_witness :
    (WFq qHalfFit ∧ qHalfFit.classes_.length = 2) ∧
    (∃ c clf, qHalfFit.estimators_ = [(c, clf)] ∧
      predict qHalfFit [()] "cc" =
        .ok [some (1 - relFreq clf [()]), some (relFreq clf [()])] ∧
      predict qHalfFit [()] "ac" = .ok
        [some (1 - acEntryFn (relFreq clf [()]) (qHalfFit.fpr_ c) (qHalfFit.tpr_ c)),
         some (acEntryFn (relFreq clf [()]) (qHalfFit.fpr_ c) (qHalfFit.tpr_ c))] ∧
      ∀ f, clf.predictProba = some f →
        predict qHalfFit [()] "pcc" =
          .ok [some (1 - meanProba f [()]), some (meanProba f [()])] ∧
        predict qHalfFit [()] "pac" = .ok
          [(pacEntry (meanProba f [()]) (qHalfFit.fp_pa_ c) (qHalfFit.tp_pa_ c)).map
             fun p => 1 - p,
           pacEntry (meanProba f [()]) (qHalfFit.fp_pa_ c) (qHalfFit.tp_pa_ c)]) := by
  have hwf : WFq qHalfFit := by
    constructor
    · have hc : qHalfFit.classes_ = [0, 1] := by
        norm_num [qHalfFit, fit, sortedClasses, List.dedup, List.pwFilter,
          List.insertionSort, List.orderedInsert]
      rw [hc]
      exact List.cons_ne_nil _ _
    · norm_num [qHalfFit, fit, sortedClasses, capsHalfCC, clfHalf, binarize,
        List.dedup, List.pwFilter, List.insertionSort, List.orderedInsert]
  have h2 : qHalfFit.classes_.length = 2 := by
    have hc : qHalfFit.classes_ = [0, 1] := by
      norm_num [qHalfFit, fit, sortedClasses, List.dedup, List.pwFilter,
        List.insertionSort, List.orderedInsert]
    rw [hc]
    rfl
  exact ⟨⟨hwf, h2⟩, c6_binary_expansion qHalfFit [()] hwf h2⟩

/-- C9 (confirmed).  For every fitted quantifier without a (truthy)
configured bin count (`b` is `None`, or the degenerate 0, both falsy in
the source's `if not self.b`), the hdy strategy fails with the
`ValueError` demanding that the quantifier be trained with `b`; with a
positive configured `b` the hdy strategy never raises that error. -/
theorem c9_hdy_requires_b {α : Type} (q : FittedCC α) (X : List α) :
    (bFalsy q.b = true → predict q X "hdy" = .error (.valueError hdyMsg)) ∧
    (∀ nb, q.b = some nb → 0 < nb →
      predict q X "hdy" ≠ .error (.valueError hdyMsg)) := by
  constructor
  · intro hb
    rw [predict_hdy_dispatch]
    unfold predictHDY
    rw [hb]
    rfl
  · intro nb hnb hpos
    rw [predict_hdy_dispatch]
    unfold predictHDY
    have hb : bFalsy q.b = false := by
      rw [hnb]
      simp only [bFalsy]
      rw [beq_eq_false_iff_ne]
      omega
    rw [hb]
    simp only [Bool.false_eq_true, if_false]
    cases htd : q.train_dist_ with
    | none => simp
    | some td =>
      by_cases h2 : q.classes_.length = 2
      · cases hpp : ((q.estimators_.lookup 1).getD (dfltClf α)).predictProba with
        | none => simp [h2, hpp]
        | some f => simp [h2, hpp]
      · cases hcp : collectProba1 q.estimators_ X with
        | ok cols => simp [h2, Except.map, hcp]
        | error e =>
          have he := collectProba1_error q.estimators_ X e hcp
          simp [h2, Except.map, hcp, he]

/-- C9 witness: the theorem applied to `qHalfFit` (fitted with `b =
None`: hdy raises) and to `qHdyFit` (fitted with `b = 1`: hdy does not
raise the configuration error). -/
theorem c9_witness :
    bFalsy qHalfFit.b = true ∧
    predict qHalfFit [()] "hdy" = .error (.valueError hdyMsg) ∧
    qHdyFit.b = some 1 ∧
    predict qHdyFit [()] "hdy" ≠ .error (.valueError hdyMsg) :=
  ⟨rfl, (c9_hdy_requires_b qHalfFit [()]).1 rfl, rfl,
    (c9_hdy_requires_b qHdyFit [()]).2 1 rfl one_pos⟩

theorem mem_sortedClasses {y : List ℤ} {c : ℤ} : c ∈ sortedClasses y ↔ c ∈ y := by
  unfold sortedClasses
  rw [(List.perm_insertionSort (· ≤ ·) y.dedup).mem_iff, List.mem_dedup]

theorem sortedClasses_ne_nil {y : List ℤ} (hy : y ≠ []) : sortedClasses y ≠ [] := by
  obtain ⟨a, t, rfl⟩ := List.exists_cons_of_ne_nil hy
  intro hc
  have : a ∈ sortedClasses (a :: t) := mem_sortedClasses.mpr (List.mem_cons_self a t)
  rw [hc] at this
  exact List.not_mem_nil a this

theorem fit_estimator_keys {α : Type} (caps : Caps α) (X : List α) (y : List ℤ)
    (cv : ℕ) (b : Option ℕ) :
    (fit caps X y cv b).estimators_.map Prod.fst =
      (if (sortedClasses y).length = 2 then (sortedClasses y).drop 1
       else sortedClasses y) := by
  show (((if (sortedClasses y).length = 2 then (sortedClasses y).drop 1
      else sortedClasses y).map fun c => (c, caps.trainClf X (binarize y c))).map
        Prod.fst) = _
  rw [List.map_map]
  have hid : (Prod.fst ∘ fun c => (c, caps.trainClf X (binarize y c))) = id := rfl
  rw [hid, List.map_id]

theorem foldl_min_le_init (l : List ℕ) : ∀ a : ℕ, l.foldl min a ≤ a := by
  induction l with
  | nil => intro a; exact le_refl a
  | cons b t ih =>
    intro a
    exact (ih (min a b)).trans (min_le_left a b)

theorem foldl_min_le_mem (l : List ℕ) : ∀ (a x : ℕ), x ∈ l → l.foldl min a ≤ x := by
  induction l with
  | nil => intro a x hx; cases hx
  | cons b t ih =>
    intro a x hx
    rcases List.mem_cons.mp hx with rfl | hx
    · exact (foldl_min_le_init t (min a x)).trans (min_le_right a x)
    · exact ih (min a b) x hx

theorem foldl_min_mem (l : List ℕ) : ∀ a : ℕ, l.foldl min a = a ∨ l.foldl min a ∈ l := by
  induction l with
  | nil => intro a; exact Or.inl rfl
  | cons b t ih =>
    intro a
    rw [List.foldl_cons]
    rcases ih (min a b) with h | h
    · rcases le_total a b with hab | hab
      · rw [h, min_eq_left hab]
        exact Or.inl rfl
      · rw [h, min_eq_right hab]
        exact Or.inr (List.mem_cons_self b t)
    · exact Or.inr (List.mem_cons_of_mem b h)

theorem listMin_le {l : List ℕ} {x : ℕ} (hx : x ∈ l) : listMin l ≤ x := by
  cases l with
  | nil => cases hx
  | cons a t =>
    rcases List.mem_cons.mp hx with rfl | hx
    · exact foldl_min_le_init t x
    · exact foldl_min_le_mem t a x hx

theorem listMin_mem {l : List ℕ} (hl : l ≠ []) : listMin l ∈ l := by
  cases l with
  | nil => exact absurd rfl hl
  | cons a t =>
    rcases foldl_min_mem t a with h | h
    · rw [show listMin (a :: t) = t.foldl min a from rfl, h]
      exact List.mem_cons_self a t
    · exact List.mem_cons_of_mem a h

/-- C7 (confirmed).  For a training set with exactly 2 distinct labels,
`fit` trains exactly one estimator, keyed by the second label of the
ordered class set (the designated positive class); with more than 2
distinct labels, one estimator per class is trained, in class order. -/
theorem c7_estimator_bank {α : Type} (caps : Caps α) (X : List α) (y : List ℤ)
    (cv : ℕ) (b : Option ℕ) :
    (fit caps X y cv b).classes_ = sortedClasses y ∧
    (y.dedup.length = 2 →
      (fit caps X y cv b).estimators_.map Prod.fst = (sortedClasses y).drop 1 ∧
      (fit caps X y cv b).estimators_.length = 1) ∧
    (2 < y.dedup.length →
      (fit caps X y cv b).estimators_.map Prod.fst = sortedClasses y) := by
  have hlen : (sortedClasses y).length = y.dedup.length :=
    (List.perm_insertionSort (· ≤ ·) y.dedup).length_eq
  refine ⟨rfl, ?_, ?_⟩
  · intro h2
    have hsc : (sortedClasses y).length = 2 := hlen.trans h2
    have hmap := fit_estimator_keys caps X y cv b
    rw [if_pos hsc] at hmap
    refine ⟨hmap, ?_⟩
    have h := congrArg List.length hmap
    rw [List.length_map, List.length_drop, hsc] at h
    exact h
  · intro hgt
    have hsc : (sortedClasses y).length ≠ 2 := by omega
    have hmap := fit_estimator_keys caps X y cv b
    rw [if_neg hsc] at hmap
    exact hmap

/-- C7 witness: the theorem applied to a 2-label training set `[5, 3]`
(ordered class set `[3, 5]`, single estimator keyed 5) — the >2 branch
is vacuously instantiated. -/
theorem c7_witness :
    ([5, 3] : List ℤ).dedup.length = 2 ∧
    (fit capsHalfCC [(), ()] [5, 3] 50 none).classes_ = sortedClasses [5, 3] ∧
    (fit capsHalfCC [(), ()] [5, 3] 50 none).estimators_.map Prod.fst =
      (sortedClasses [5, 3]).drop 1 ∧
    (fit capsHalfCC [(), ()] [5, 3] 50 none).estimators_.length = 1 := by
  have h := c7_estimator_bank capsHalfCC [(), ()] [5, 3] 50 none
  have h2 : ([5, 3] : List ℤ).dedup.length = 2 := by
    norm_num [List.dedup, List.pwFilter]
  exact ⟨h2, h.1, (h.2.1 h2).1, (h.2.1 h2).2⟩

/-- C8 (confirmed).  `fit` calibrates performance with a fold count
equal to the minimum of the requested folds and the smallest per-class
label count: the recorded effective fold count is at most the request,
at most every class's count, and attains one of the two. -/
theorem c8_fold_count {α : Type} (caps : Caps α) (X : List α) (y : List ℤ)
    (cv : ℕ) (b : Option ℕ) (hy : y ≠ []) :
    (fit caps X y cv b).cvUsed ≤ cv ∧
    (∀ c ∈ y, (fit caps X y cv b).cvUsed ≤ y.count c) ∧
    ((fit caps X y cv b).cvUsed = cv ∨
      ∃ c ∈ y, y.count c = (fit caps X y cv b).cvUsed) := by
  have hcv : (fit caps X y cv b).cvUsed =
      min cv (listMin ((sortedClasses y).map fun c => y.count c)) := rfl
  refine ⟨hcv ▸ min_le_left _ _, ?_, ?_⟩
  · intro c hc
    have hmem : y.count c ∈ (sortedClasses y).map fun c => y.count c :=
      List.mem_map.mpr ⟨c, mem_sortedClasses.mpr hc, rfl⟩
    exact hcv ▸ (min_le_right _ _).trans (listMin_le hmem)
  · rcases le_total cv (listMin ((sortedClasses y).map fun c => y.count c)) with h | h
    · exact Or.inl (hcv ▸ min_eq_left h)
    · refine Or.inr ?_
      have hne : ((sortedClasses y).map fun c => y.count c) ≠ [] := by
        intro hc
        exact sortedClasses_ne_nil hy (List.map_eq_nil_iff.mp hc)
      obtain ⟨c, hcm, hcount⟩ := List.mem_map.mp (listMin_mem hne)
      exact ⟨c, mem_sortedClasses.mp hcm, by rw [hcount, hcv, min_eq_right h]⟩

/-- C8 witness: the theorem applied to the unbalanced binary set
`[0, 0, 1]` with 50 requested folds — the effective fold count is
`min 50 1 = 1`, the count of the rarest label. -/
theorem c8_witness :
    ([0, 0, 1] : List ℤ) ≠ [] ∧
    (fit capsHalfCC [(), (), ()] [0, 0, 1] 50 none).cvUsed ≤ 50 ∧
    (∀ c ∈ ([0, 0, 1] : List ℤ),
      (fit capsHalfCC [(), (), ()] [0, 0, 1] 50 none).cvUsed ≤
        ([0, 0, 1] : List ℤ).count c) ∧
    ((fit capsHalfCC [(), (), ()] [0, 0, 1] 50 none).cvUsed = 50 ∨
      ∃ c ∈ ([0, 0, 1] : List ℤ),
        ([0, 0, 1] : List ℤ).count c =
          (fit capsHalfCC [(), (), ()] [0, 0, 1] 50 none).cvUsed) := by
  have h := c8_fold_count capsHalfCC [(), (), ()] [0, 0, 1] 50 none
    (List.cons_ne_nil _ _)
  exact ⟨List.cons_ne_nil _ _, h.1, h.2.1, h.2.2⟩

theorem map_getD_range (l : List ℚ) :
    (List.range l.length).map (fun j => l.getD j 0) = l := by
  apply List.ext_getElem
  · simp
  · intro n h1 h2
    simp only [List.getElem_map, List.getElem_range]
    rw [List.getD_eq_getElem?_getD, List.getElem?_eq_getElem h2, Option.getD_some]

theorem sum_const_list {ls : List (List ℚ)} {v : List ℚ} (j : ℕ)
    (hall : ∀ r ∈ ls, r = v) :
    (ls.map fun row => row.getD j 0).sum = ls.length * v.getD j 0 := by
  induction ls with
  | nil => simp
  | cons w rest ih =>
    rw [List.map_cons, List.sum_cons, hall w (List.mem_cons_self w rest),
      ih fun r hr => hall r (List.mem_cons_of_mem w hr)]
    rw [List.length_cons]
    push_cast
    ring

theorem meanVecs_const {ls : List (List ℚ)} {v : List ℚ} (hne : ls ≠ [])
    (hall : ∀ r ∈ ls, r = v) : CCLegacy.meanVecs ls = v := by
  cases ls with
  | nil => exact absurd rfl hne
  | cons w rest =>
    have hw : w = v := hall w (List.mem_cons_self w rest)
    subst hw
    have hlen : ((w :: rest).length : ℚ) ≠ 0 := by
      have : (0 : ℚ) < (w :: rest).length := by
        exact_mod_cast Nat.succ_pos rest.length
      exact this.ne'
    unfold CCLegacy.meanVecs
    calc (List.range w.length).map
          (fun j => ((w :: rest).map fun row => row.getD j 0).sum / ((w :: rest).length : ℚ))
        = (List.range w.length).map fun j => w.getD j 0 := by
          apply List.map_congr_left
          intro j _
          rw [sum_const_list j hall]
          rw [mul_comm, mul_div_assoc, div_self hlen, mul_one]
      _ = w := map_getD_range w

/-- C10 (confirmed).  For every fitted `MulticlassAdjustedCount`
quantifier (with at least one conditional-probability matrix, as `fit`
always produces) and every input, `_predict` returns the unadjusted
relative class frequencies of the majority-vote hard predictions: the
inner `solve_adjustments` returns its `coefs` argument unmodified for
every least-squares capability and every input, so the computed
least-squares adjustment is discarded and the mean of the per-matrix
results collapses to the original frequency vector. -/
theorem c10_adjustment_discarded {α : Type} (st : CCLegacy.MCAdjusted α)
    (X : List α) (lstsq : List (List ℚ) → List ℚ → List ℚ)
    (hcp : st.conditional_prob_ ≠ []) :
    CCLegacy.mcPredict st X lstsq = CCLegacy.majorityRelFreq st X ∧
    ∀ (ls : List (List ℚ) → List ℚ → List ℚ) (m : List (List ℚ)) (c : List ℚ),
      CCLegacy.solve_adjustments ls m c = c := by
  refine ⟨?_, fun _ _ _ => rfl⟩
  unfold CCLegacy.mcPredict
  have hall : ∀ r ∈ st.conditional_prob_.map
      (fun m => CCLegacy.solve_adjustments lstsq m (CCLegacy.majorityRelFreq st X)),
      r = CCLegacy.majorityRelFreq st X := by
    intro r hr
    obtain ⟨m, -, rfl⟩ := List.mem_map.mp hr
    rfl
  exact meanVecs_const (by simpa using hcp) hall

/-- C10 witness: the theorem applied to the 3-class state `stM`, the
batch `[()]` and a least-squares capability returning a visibly
different vector; the result is still the majority-vote frequency
vector `[0, 1, 0]`. -/
theorem c10_witness :
    CCLegacy.stM.conditional_prob_ ≠ [] ∧
    CCLegacy.mcPredict CCLegacy.stM [()] CCLegacy.lstsqC =
      CCLegacy.majorityRelFreq CCLegacy.stM [()] ∧
    CCLegacy.majorityRelFreq CCLegacy.stM [()] = [0, 1, 0] ∧
    ∀ (ls : List (List ℚ) → List ℚ → List ℚ) (m : List (List ℚ)) (c : List ℚ),
      CCLegacy.solve_adjustments ls m c = c := by
  have hcp : CCLegacy.stM.conditional_prob_ ≠ [] := by
    show ([[[1, 0, 0], [0, 1, 0], [0, 0, 1]]] : List (List (List ℚ))) ≠ []
    exact List.cons_ne_nil _ _
  have h := c10_adjustment_discarded CCLegacy.stM [()] CCLegacy.lstsqC hcp
  refine ⟨hcp, h.1, ?_, h.2⟩
  have hmv : CCLegacy.majorityVotes CCLegacy.stM [()] = [1] := by rfl
  have hbc : CCLegacy.bincountMin [1] CCLegacy.stM.classes_.length = [0, 1, 0] := by rfl
  unfold CCLegacy.majorityRelFreq
  rw [hmv, hbc]
  norm_num

theorem friedmanCT_mulVec_zero {n : ℕ} (x : Fin n → ℚ) :
    (Friedman.friedmanC n).transpose.mulVec x 0 = -(∑ i, x i) := by
  simp only [Matrix.mulVec, Matrix.dotProduct, Matrix.transpose_apply,
    Friedman.friedmanC, Matrix.of_apply]
  rw [← Finset.sum_neg_distrib]
  apply Finset.sum_congr rfl
  intro i _
  rw [if_pos]
  · ring
  · rfl

theorem friedmanCT_mulVec_succ {n : ℕ} (x : Fin n → ℚ) (k : Fin n) :
    (Friedman.friedmanC n).transpose.mulVec x k.succ = x k := by
  simp only [Matrix.mulVec, Matrix.dotProduct, Matrix.transpose_apply,
    Friedman.friedmanC, Matrix.of_apply]
  rw [Finset.sum_eq_single k]
  · rw [if_neg (by simp [Fin.val_succ]), if_pos (by simp [Fin.val_succ]), one_mul]
  · intro i _ hik
    rw [if_neg (by simp [Fin.val_succ]), if_neg, zero_mul]
    simp only [Fin.val_succ]
    exact fun hc => hik (Fin.ext (Nat.succ_injective hc)).symm
  · intro h
    exact absurd (Finset.mem_univ k) h

/-- C3 (amended).  `FriedmanAC.predict` forms `G = VᵀV` (replaced by its
nearest positive-definite approximation when `is_pd` rejects it) and
`a = U·V`, hands `(G, a)` to the QP capability together with the
constraint data `C = [-1ᵀ; I]ᵀ`, `b = (-1, 0, …, 0)` — all rows
inequalities, since `meq` is left at 0 — and returns the solver's
solution vector directly with no renormalization.  Whenever the solver
honours the quadprog contract on that instance, the result is
non-negative with coordinate sum at most 1; the sum-to-1 equality of the
original claim is not enforced (see the counterexample). -/
theorem c3_friedman_qp {n : ℕ} {α : Type} (q : Friedman.FriedmanFitted n α)
    (X : List α)
    (hsol : Friedman.IsQPSolution (Friedman.computedG q) (Friedman.computedA q X)
      (Friedman.friedmanC n) (Friedman.friedmanB n) (Friedman.friedmanPredict q X)) :
    Friedman.friedmanPredict q X =
      q.solveQP (Friedman.computedG q) (Friedman.computedA q X)
        (Friedman.friedmanC n) (Friedman.friedmanB n) ∧
    (∀ i, 0 ≤ Friedman.friedmanPredict q X i) ∧
    (∑ i, Friedman.friedmanPredict q X i) ≤ 1 := by
  obtain ⟨hfeas, -⟩ := hsol
  refine ⟨rfl, ?_, ?_⟩
  · intro k
    have h := hfeas k.succ
    rw [friedmanCT_mulVec_succ] at h
    have hb : Friedman.friedmanB n k.succ = 0 := by
      simp [Friedman.friedmanB, Fin.val_succ]
    rw [hb] at h
    exact h
  · have h := hfeas 0
    rw [friedmanCT_mulVec_zero] at h
    have hb : Friedman.friedmanB n 0 = -1 := by
      rw [Friedman.friedmanB, if_pos]
      rfl
    rw [hb] at h
    linarith

theorem qF_upRaw (j : Fin 2) : Friedman.upRaw Friedman.qF () j = 1 / 2 := by
  unfold Friedman.upRaw Friedman.qF
  norm_num

theorem qF_U (i : Fin 2) : Friedman.friedmanU Friedman.qF [()] i = 0 := by
  have hrow : ∀ j : Fin 2, Friedman.upInd Friedman.qF () j = 0 := by
    intro j
    unfold Friedman.upInd
    rw [show (∑ k, Friedman.upRaw Friedman.qF () k) = 1 by
      rw [Fin.sum_univ_two, qF_upRaw 0, qF_upRaw 1]; norm_num]
    rw [qF_upRaw j]
    norm_num [Friedman.qF]
  unfold Friedman.friedmanU
  simp [hrow]

theorem qF_a (j : Fin 2) : Friedman.computedA Friedman.qF [()] j = 0 := by
  unfold Friedman.computedA
  rw [Matrix.vecMul, Matrix.dotProduct]
  apply Finset.sum_eq_zero
  intro i _
  rw [qF_U i, zero_mul]

/-- The zero vector is a genuine QP solution (feasible and minimizing)
of the instance `FriedmanAC.predict` generates on the state `qF` with
the one-instance batch, under the quadprog constraint convention the
source uses. -/
theorem zero_solves_qF_instance :
    Friedman.IsQPSolution (Friedman.computedG Friedman.qF)
      (Friedman.computedA Friedman.qF [()]) (Friedman.friedmanC 2)
      (Friedman.friedmanB 2) (fun _ => (0 : ℚ)) := by
  have hG : Friedman.computedG Friedman.qF = 1 := by
    unfold Friedman.computedG Friedman.qF
    simp [Matrix.transpose_one, Matrix.one_mul]
  constructor
  · intro j
    have hz : (Friedman.friedmanC 2).transpose.mulVec (fun _ => (0 : ℚ)) j = 0 := by
      simp [Matrix.mulVec, Matrix.dotProduct]
    rw [hz]
    by_cases hj : (j : ℕ) = 0
    · rw [Friedman.friedmanB, if_pos hj]
      norm_num
    · rw [Friedman.friedmanB, if_neg hj]
  · intro z hz
    have hobj0 : Friedman.qpObj (Friedman.computedG Friedman.qF)
        (Friedman.computedA Friedman.qF [()]) (fun _ => (0 : ℚ)) = 0 := by
      unfold Friedman.qpObj
      simp [Matrix.dotProduct]
    have hdota : Matrix.dotProduct (Friedman.computedA Friedman.qF [()]) z = 0 := by
      rw [Matrix.dotProduct]
      apply Finset.sum_eq_zero
      intro i _
      rw [qF_a i, zero_mul]
    rw [hobj0]
    unfold Friedman.qpObj
    rw [hG, Matrix.one_mulVec, hdota, sub_zero, Matrix.dotProduct]
    have hsq : (0 : ℚ) ≤ ∑ i, z i * z i :=
      Finset.sum_nonneg fun i _ => mul_self_nonneg (z i)
    linarith

/-- C3 counterexample.  On the fitted binary `FriedmanAC` state `qF`
(identity correction matrix, balanced training prevalence, constant-½
estimator) with a single-instance batch, the generated QP instance is
`G = I`, `a = 0`; its unique minimizer over the constraint set the
source actually passes (`Σx ≤ 1`, `x ≥ 0` — all inequalities) is the
zero vector, which the solver returns and `predict` passes through
unchanged.  Its coordinates sum to 0, not 1: the constraints do not
place the result on the simplex, refuting the claim as stated. -/
theorem c3_counterexample :
    Friedman.friedmanPredict Friedman.qF [()] = (fun _ => (0 : ℚ)) ∧
    Friedman.IsQPSolution (Friedman.computedG Friedman.qF)
      (Friedman.computedA Friedman.qF [()]) (Friedman.friedmanC 2)
      (Friedman.friedmanB 2) (Friedman.friedmanPredict Friedman.qF [()]) ∧
    (∑ i, Friedman.friedmanPredict Friedman.qF [()] i) ≠ 1 := by
  have hp : Friedman.friedmanPredict Friedman.qF [()] = (fun _ => (0 : ℚ)) := rfl
  refine ⟨hp, ?_, ?_⟩
  · rw [hp]
    exact zero_solves_qF_instance
  · rw [hp, Fin.sum_univ_two]
    norm_num

/-- C3 witness: the amended theorem applied to `qF` with the
single-instance batch and the (verified) solver contract hypothesis. -/
theorem c3_witness :
    Friedman.IsQPSolution (Friedman.computedG Friedman.qF)
      (Friedman.computedA Friedman.qF [()]) (Friedman.friedmanC 2)
      (Friedman.friedmanB 2) (Friedman.friedmanPredict Friedman.qF [()]) ∧
    (Friedman.friedmanPredict Friedman.qF [()] =
      Friedman.qF.solveQP (Friedman.computedG Friedman.qF)
        (Friedman.computedA Friedman.qF [()]) (Friedman.friedmanC 2)
        (Friedman.friedmanB 2) ∧
     (∀ i, 0 ≤ Friedman.friedmanPredict Friedman.qF [()] i) ∧
     (∑ i, Friedman.friedmanPredict Friedman.qF [()] i) ≤ 1) := by
  have hsol : Friedman.IsQPSolution (Friedman.computedG Friedman.qF)
      (Friedman.computedA Friedman.qF [()]) (Friedman.friedmanC 2)
      (Friedman.friedmanB 2) (Friedman.friedmanPredict Friedman.qF [()]) := by
    rw [show Friedman.friedmanPredict Friedman.qF [()] = (fun _ => (0 : ℚ)) from rfl]
    exact zero_solves_qF_instance
  exact ⟨hsol, c3_friedman_qp Friedman.qF [()] hsol⟩

/-- C4 (code bug, demonstrated at a failing input).  The multiclass
branch of `_compute_distribution` normalizes the histogram of the
instances of the *true* class `cls` by `sum(y_bin)` — the count of the
*classifier's* positive class — so the (true class, classifier) slice
sums to `count(cls)/count(clf_cls)`, which is 1 only on the diagonal or
for balanced classes.  On the unbalanced 3-class training set
`y = [0, 1, 1, 2, 2, 2]` with in-range out-of-fold probabilities, the
fitted table's rows are `[1, 1/2, 1/3]`, `[2, 1, 2/3]`, `[3, 3/2, 1]`:
the (class 0, classifier 1) slice sums to 1/2, not 1 (and off-diagonal
entries even exceed 1), contradicting the spec's sum-to-1 invariant;
the diagonal slice does sum to 1, as the binary branch always does. -/
theorem c4_distribution_slice_sum :
    (fit capsThird xUnbal yUnbal 50 (some 1)).train_dist_ =
      some [[1, 1 / 2, 1 / 3], [2, 1, 2 / 3], [3, 3 / 2, 1]] ∧
    (mcSlice capsThird xUnbal yUnbal 1 0 1 clfThird).sum = 1 / 2 ∧
    (mcSlice capsThird xUnbal yUnbal 1 1 1 clfThird).sum = 1 ∧
    ((1 : ℚ) / 2) ≠ 1 := by
  refine ⟨?_, ?_, ?_, by norm_num⟩
  · show computeDistribution capsThird xUnbal yUnbal (some 1) (sortedClasses yUnbal)
        _ = _
    norm_num [computeDistribution, mcSlice, capsThird, xUnbal, yUnbal, binarize,
      sortedClasses, List.dedup, List.pwFilter, List.insertionSort,
      List.orderedInsert, List.filterMap, List.count_cons, List.count_nil, hist,
      binOf, List.filter, listMin, show List.range 1 = [0] from rfl]
  · unfold mcSlice
    norm_num [capsThird, xUnbal, yUnbal, binarize, List.filterMap, List.count_cons,
      List.count_nil, hist, binOf, List.filter, show List.range 1 = [0] from rfl]
  · unfold mcSlice
    norm_num [capsThird, xUnbal, yUnbal, binarize, List.filterMap, List.count_cons,
      List.count_nil, hist, binOf, List.filter, show List.range 1 = [0] from rfl]

/-- C2 witness: the amended theorem applied to `qDegen`, the batch
`[()]` and estimator index 0 (class 1). -/
theorem c2_witness :
    qDegen.estimators_[0]? = some (1, clfCrisp) ∧
    ((acVals qDegen [()])[0]? = some
      (if qDegen.tpr_ 1 - qDegen.fpr_ 1 ≠ 0 then
        clip01 ((relFreq clfCrisp [()] - qDegen.fpr_ 1) / (qDegen.tpr_ 1 - qDegen.fpr_ 1))
      else if qDegen.fpr_ 1 < relFreq clfCrisp [()] then 1 else 0) ∧
    predict qDegen [()] "ac" =
      .ok ((normalize (assembleQ qDegen (acVals qDegen [()]))).map some)) :=
  ⟨rfl, c2_ac_adjustment qDegen [()] 0 1 clfCrisp rfl⟩

end Quantification
